import Mathlib

/-!
Verification of the Crossplay move engine (teddy-ross/crossplayBot).

This file gives a shallow embedding, in Lean 4, of the parts of the
repository that the claims C1..C10 are about:

* game constants (`crossplay_engine.py` lines 42-76; the package module
  `crossplay/constants.py` is not present in the source tree, but every
  constant it exports is also defined, with the literal values, in
  `crossplay_engine.py`, which the claims cite for the bonus grid);
* the board (`crossplay/board.py`);
* the trie (`crossplay/trie.py`);
* the move generator and scorer (`crossplay/engine.py`, and the variant
  `_try_placements` of `crossplay_engine.py` which lacks the
  adjacent-occupied-cell rejection);
* bag accounting (`crossplay/bag.py`);
* the leave evaluator (`crossplay/leave.py`, with Python float arithmetic
  idealised as exact rational arithmetic);
* the entry portion of the Monte-Carlo simulator (`crossplay/simulation.py`),
  including a small heap model used to verify its frame property.

Rows and columns are modelled as `Int`, as in Python; bounds checks are
translated literally.  Python strings of letters are `List Char`.
-/

namespace Crossplay

/-- `BOARD_SIZE = 15`, from `crossplay_engine.py` line 42. -/
def BOARD_SIZE : Int := 15

/-- `CENTER = 7`, from `crossplay_engine.py` line 43. -/
def CENTER : Int := 7

/-- `SWEEP_BONUS = 40`, from `crossplay_engine.py` line 76. -/
def SWEEP_BONUS : Int := 40

/-- Crossplay tile point values, `crossplay_engine.py` lines 46-51.
All call sites in the engine read the table through
`TILE_VALUES.get(letter, 0)`, so the embedding is a total function with
default 0. -/
def TILE_VALUES (c : Char) : Int :=
  match c with
  | 'A' => 1 | 'B' => 4 | 'C' => 3 | 'D' => 2 | 'E' => 1 | 'F' => 4 | 'G' => 4
  | 'H' => 3 | 'I' => 1 | 'J' => 10 | 'K' => 6 | 'L' => 2 | 'M' => 3 | 'N' => 1
  | 'O' => 1 | 'P' => 3 | 'Q' => 10 | 'R' => 1 | 'S' => 1 | 'T' => 1 | 'U' => 2
  | 'V' => 6 | 'W' => 5 | 'X' => 8 | 'Y' => 4 | 'Z' => 10 | '?' => 0
  | _ => 0

/-- Bonus square layout, transcribed literally from `crossplay_engine.py`
lines 57-73.  `"."` is a normal square and `"*"` the centre star. -/
def BONUS_GRID : List (List String) :=
  [["TL", ".",  ".",  "TW", ".",  ".",  ".",  "DL", ".",  ".",  ".",  "TW", ".",  ".",  "TL"],
   [".",  "DW", ".",  ".",  ".",  ".",  "TL", ".",  "TL", ".",  ".",  ".",  ".",  "DW", "." ],
   [".",  ".",  ".",  ".",  "DL", ".",  ".",  ".",  ".",  ".",  "DL", ".",  ".",  ".",  "." ],
   ["TW", ".",  ".",  "DL", ".",  ".",  ".",  "DW", ".",  ".",  ".",  "DL", ".",  ".",  "TW"],
   [".",  ".",  "DL", ".",  ".",  "TL", ".",  ".",  ".",  "TL", ".",  ".",  "DL", ".",  "." ],
   [".",  ".",  ".",  ".",  "TL", ".",  ".",  "DL", ".",  ".",  "TL", ".",  ".",  ".",  "." ],
   [".",  "TL", ".",  ".",  ".",  ".",  ".",  ".",  ".",  ".",  ".",  ".",  ".",  "TL", "." ],
   ["DL", ".",  ".",  "DW", ".",  "DL", ".",  "*",  ".",  "DL", ".",  "DW", ".",  ".",  "DL"],
   [".",  "TL", ".",  ".",  ".",  ".",  ".",  ".",  ".",  ".",  ".",  ".",  ".",  "TL", "." ],
   [".",  ".",  ".",  ".",  "TL", ".",  ".",  "DL", ".",  ".",  "TL", ".",  ".",  ".",  "." ],
   [".",  ".",  "DL", ".",  ".",  "TL", ".",  ".",  ".",  "TL", ".",  ".",  "DL", ".",  "." ],
   ["TW", ".",  ".",  "DL", ".",  ".",  ".",  "DW", ".",  ".",  ".",  "DL", ".",  ".",  "TW"],
   [".",  ".",  ".",  ".",  "DL", ".",  ".",  ".",  ".",  ".",  "DL", ".",  ".",  ".",  "." ],
   [".",  "DW", ".",  ".",  ".",  ".",  "TL", ".",  "TL", ".",  ".",  ".",  ".",  "DW", "." ],
   ["TL", ".",  ".",  "TW", ".",  ".",  ".",  "DL", ".",  ".",  ".",  "TW", ".",  ".",  "TL"]]

/-- The bonus string at an in-range square, read as total function
(used by the scorer, which only ever indexes in range). -/
def bonusAt (r c : Int) : String :=
  ((BONUS_GRID.getD r.toNat []).getD c.toNat ".")

/-- The integers `0, 1, ..., n-1`, used to translate `range(n)` loops
whose index is combined with `Int` coordinates. -/
def intRange (n : Nat) : List Int :=
  (List.range n).map (fun i => (i : Int))

/-- A 15x15 board (`crossplay/board.py`).  A cell holds `none` (empty),
an uppercase letter (regular tile) or a lowercase letter (blank played as
that letter).  The grid is modelled as a total function; all public
accessors guard the coordinates exactly as the Python code does. -/
structure Board where
  cells : Int → Int → Option Char

/-- `Board.get` (`board.py` lines 17-21): the letter at `(row, col)`, or
`None`; out-of-range coordinates return `None`. -/
def Board.get (b : Board) (row col : Int) : Option Char :=
  if 0 ≤ row ∧ row < BOARD_SIZE ∧ 0 ≤ col ∧ col < BOARD_SIZE then
    b.cells row col
  else
    none

/-- `Board.set` (`board.py` lines 23-26): place a letter or clear the
cell; out-of-range coordinates leave the board unchanged. -/
def Board.set (b : Board) (row col : Int) (letter : Option Char) : Board :=
  if 0 ≤ row ∧ row < BOARD_SIZE ∧ 0 ≤ col ∧ col < BOARD_SIZE then
    ⟨fun r c => if r = row ∧ c = col then letter else b.cells r c⟩
  else
    b

/-- `Board.is_empty` (`board.py` lines 28-30). -/
def Board.is_empty (b : Board) (row col : Int) : Bool :=
  (b.get row col).isNone

/-- `Board.is_occupied` (`board.py` lines 32-34). -/
def Board.is_occupied (b : Board) (row col : Int) : Bool :=
  !(b.is_empty row col)

/-- `Board.is_board_empty` (`board.py` lines 36-42): no tile anywhere.
The Python loop reads `cells[r][c]` for in-range `r, c` only, which
coincides with `get`. -/
def Board.is_board_empty (b : Board) : Bool :=
  (intRange 15).all (fun r => (intRange 15).all (fun c => (b.get r c).isNone))

/-- `Board.count_tiles` (`board.py` lines 44-49): number of occupied
cells. -/
def Board.count_tiles (b : Board) : Nat :=
  ((intRange 15).map (fun r =>
    ((intRange 15).filter (fun c => b.is_occupied r c)).length)).sum

/-- Python list indexing: a negative index counts from the end; an index
outside `[-len, len)` raises `IndexError`, modelled as `none`. -/
def pyIndex {α : Type} (xs : List α) (i : Int) : Option α :=
  if 0 ≤ i then xs[i.toNat]?
  else if 0 ≤ i + (xs.length : Int) then xs[(i + (xs.length : Int)).toNat]?
  else none

/-- `Board.get_bonus` (`board.py` lines 51-55).  The result is `none`
when the Python code raises `IndexError` (it reads
`BONUS_GRID[row][col]` with raw list indexing), `some none` when it
returns `None` (occupied cell), and `some (some s)` when it returns the
bonus string `s`. -/
def Board.get_bonus (b : Board) (row col : Int) : Option (Option String) :=
  if b.is_occupied row col then some none
  else
    match pyIndex BONUS_GRID row with
    | none => none
    | some rowL =>
      match pyIndex rowL col with
      | none => none
      | some s => some (some s)

/-- The empty board. -/
def Board.empty : Board :=
  ⟨fun _ _ => none⟩

/-- Build a board by a sequence of `set` calls, for concrete examples. -/
def mkBoard (tiles : List (Int × Int × Char)) : Board :=
  tiles.foldl (fun b t => b.set t.1 t.2.1 (some t.2.2)) Board.empty

/-- A node of the word trie (`crossplay/trie.py`): a children map and a
terminal flag.  The Python `dict` is an association list here. -/
inductive TrieNode where
  | mk (children : List (Char × TrieNode)) (is_terminal : Bool)

/-- The children association list of a node. -/
def TrieNode.children : TrieNode → List (Char × TrieNode)
  | .mk cs _ => cs

/-- The terminal flag of a node. -/
def TrieNode.is_terminal : TrieNode → Bool
  | .mk _ t => t

/-- `children.get(ch)`: look a child up by letter. -/
def TrieNode.find (n : TrieNode) (c : Char) : Option TrieNode :=
  n.children.lookup c

/-- `Trie.insert` (`trie.py` lines 22-28): walk the word, creating
missing children, and mark the final node terminal. -/
def trieInsert : TrieNode → List Char → TrieNode
  | n, [] => .mk n.children true
  | n, c :: cs =>
    match n.find c with
    | some child =>
      .mk (n.children.map (fun p => if p.1 = c then (c, trieInsert child cs) else p))
        n.is_terminal
    | none => .mk (n.children ++ [(c, trieInsert (.mk [] false) cs)]) n.is_terminal

/-- Build a trie from a word list (the dictionary loader inserts each
word in order). -/
def buildTrie (ws : List (List Char)) : TrieNode :=
  ws.foldl trieInsert (.mk [] false)

/-- `Dictionary.__contains__` (`dictionary.py` lines 85-89): membership
of `word.upper()` in the word set.  The word set is a list of uppercase
words. -/
def dictContains (words : List (List Char)) (w : List Char) : Bool :=
  words.contains (w.map Char.toUpper)

/-- The result object (`crossplay/move.py`).  Only the fields produced
by `MoveEngine._validate_and_score` are modelled; the ranking fields
`leave_score`, `equity`, `sim_score`, `sim_equity` default to neutral
values there and are not read by the generator. -/
structure Move where
  word : List Char
  row : Int
  col : Int
  direction : String
  score : Int
  tiles_used : List (Char × Int × Int)
  cross_words : List (List Char)
  is_sweep : Bool
  blank_positions : List (Int × Int)
deriving DecidableEq

/-- A tile placed during generation: `(letter, row, col, was_blank)`,
the element type of the `placed` accumulator in `_try_placements`. -/
structure Placed where
  letter : Char
  r : Int
  c : Int
  was_blank : Bool
deriving DecidableEq

/-- One step of the `while ... is_occupied` walks in the engine: collect
raw cell letters from `(r, c)` moving by `(dr, dc)` while the cell is
occupied.  The Python loops also check the board bounds, which `get`
already enforces.  Any such run leaves the board after at most 15 steps
(the walk direction moves one unit per step), so fuel 16 never truncates. -/
def walkRun : Nat → Board → Int → Int → Int → Int → List Char
  | 0, _, _, _, _, _ => []
  | k + 1, b, r, c, dr, dc =>
    match b.get r c with
    | some ch => ch :: walkRun k b (r + dr) (c + dc) dr dc
    | none => []

/-- `MoveEngine._get_cross_word` (`engine.py` lines 320-380): build the
perpendicular word formed at `(r, c)` by a freshly placed letter, and
its score.  Returns `none` when no adjacent perpendicular tiles exist
(no cross-word forms). -/
def getCrossWord (b : Board) (r c : Int) (placedLetter : Char)
    (crossDr crossDc : Int) (bonus : String) (isBlank : Bool) :
    Option (List Char × Int) :=
  let beforeRaw := (walkRun 16 b (r - crossDr) (c - crossDc) (-crossDr) (-crossDc)).reverse
  let beforeUp := beforeRaw.map Char.toUpper
  let afterRaw := walkRun 16 b (r + crossDr) (c + crossDc) crossDr crossDc
  let afterUp := afterRaw.map Char.toUpper
  if beforeUp = [] ∧ afterUp = [] then none
  else
    let crossWord := beforeUp ++ placedLetter :: afterUp
    let score0 := (beforeRaw.map (fun raw =>
      if raw.isLower then 0 else TILE_VALUES raw.toUpper)).sum
    let letterVal := if isBlank then 0 else TILE_VALUES placedLetter
    let score1 :=
      if bonus = "DL" then score0 + letterVal * 2
      else if bonus = "TL" then score0 + letterVal * 3
      else score0 + letterVal
    let cwMult : Int := if bonus = "DW" then 2 else if bonus = "TW" then 3 else 1
    let score2 := score1 + (afterRaw.map (fun raw =>
      if raw.isLower then 0 else TILE_VALUES raw.toUpper)).sum
    some (crossWord, score2 * cwMult)

/-- State threaded through the scoring loop of `_validate_and_score`:
`main_score`, `word_mult`, `total_cross`, `cross_words`. -/
structure ScoreState where
  main : Int
  wordMult : Int
  totalCross : Int
  crossWords : List (List Char)
deriving DecidableEq

/-- One iteration of the `for i in range(len(word))` loop of
`MoveEngine._validate_and_score` (`engine.py` lines 264-299): score the
letter at index `i`, validating its perpendicular word.  `none` is the
`return None` taken on an invalid cross-word. -/
def scoreStep (b : Board) (words : List (List Char))
    (startR startC dr dc crossDr crossDc : Int)
    (placedCells : List (Int × Int)) (blankPositions : List (Int × Int))
    (i : Int) (letter : Char) (st : ScoreState) : Option ScoreState :=
  let r := startR + i * dr
  let c := startC + i * dc
  let isBoardBlank := ((b.get r c).map Char.isLower).getD false
  let isBlank := blankPositions.contains (r, c) || isBoardBlank
  let letterVal := if isBlank then 0 else TILE_VALUES letter
  if placedCells.contains (r, c) then
    let bonus := bonusAt r c
    let lm : Int := if bonus = "DL" then 2 else if bonus = "TL" then 3 else 1
    let wm : Int := if bonus = "DW" then 2 else if bonus = "TW" then 3 else 1
    let st1 : ScoreState :=
      { st with main := st.main + letterVal * lm, wordMult := st.wordMult * wm }
    match getCrossWord b r c letter crossDr crossDc bonus isBlank with
    | some (cw, cs) =>
      if cw.length > 1 then
        if dictContains words (cw.map Char.toUpper) then
          some { st1 with totalCross := st1.totalCross + cs,
                          crossWords := st1.crossWords ++ [cw] }
        else none
      else some st1
    | none => some st1
  else some { st with main := st.main + letterVal }

/-- The whole scoring loop over the `(index, letter)` pairs, stopping
with `none` as soon as one iteration rejects. -/
def scoreLoop (b : Board) (words : List (List Char))
    (startR startC dr dc crossDr crossDc : Int)
    (placedCells : List (Int × Int)) (blankPositions : List (Int × Int)) :
    List (Int × Char) → ScoreState → Option ScoreState
  | [], st => some st
  | (i, letter) :: rest, st =>
    match scoreStep b words startR startC dr dc crossDr crossDc placedCells
        blankPositions i letter st with
    | none => none
    | some st1 =>
      scoreLoop b words startR startC dr dc crossDr crossDc placedCells
        blankPositions rest st1

/-- `MoveEngine._validate_and_score` (`engine.py` lines 240-318):
validate every cross-word and compute the total score.  The Python
method also receives `fixed`, which its body never reads.
`blank_positions` is the set comprehension over `placed` built by the
caller in `_fill`. -/
def validateAndScore (b : Board) (words : List (List Char)) (word : List Char)
    (startR startC : Int) (direction : String) (placed : List Placed) :
    Option Move :=
  let dr : Int := if direction = "V" then 1 else 0
  let dc : Int := if direction = "H" then 1 else 0
  let blankPositions := (placed.filter (fun p => p.was_blank)).map (fun p => (p.r, p.c))
  let placedCells := placed.map (fun p => (p.r, p.c))
  let idxLetters := (intRange word.length).zip word
  match scoreLoop b words startR startC dr dc dc dr placedCells blankPositions
      idxLetters ⟨0, 1, 0, []⟩ with
  | none => none
  | some st =>
    let mainScore := st.main * st.wordMult
    let isSweep := placed.length == 7
    let totalScore := mainScore + st.totalCross + (if isSweep then SWEEP_BONUS else 0)
    some { word := word, row := startR, col := startC, direction := direction,
           score := totalScore,
           tiles_used := placed.map (fun p => (p.letter, p.r, p.c)),
           cross_words := st.crossWords,
           is_sweep := isSweep,
           blank_positions := blankPositions }

/-- Rebuild the main word at the terminal of `_fill`: interleave the
fixed board letters with the placed letters, in span order. -/
def rebuildWord : List (Option Char) → List Placed → List Char
  | [], _ => []
  | some ch :: fs, ps => ch :: rebuildWord fs ps
  | none :: fs, p :: ps => p.letter :: rebuildWord fs ps
  | none :: _, [] => []

/-- The letters `A`..`Z`, as iterated by `string.ascii_uppercase`. -/
def ASCII_UPPERCASE : List Char :=
  "ABCDEFGHIJKLMNOPQRSTUVWXYZ".toList

/-- The tile choices tried at one empty span position by the
`for ri in range(len(rack_avail))` loop of `_fill` (`engine.py` lines
210-233), in loop order: for each rack index, a blank expands to every
untried letter with a trie child, a letter tile is tried once if it has
a child.  Each choice records `(letter, was_blank, child, rack after
removing the consumed tile)`; the `tried` set is threaded through the
whole loop exactly as in the source. -/
def rackChoices (node : TrieNode) (rack : List Char) :
    List (Char × Bool × TrieNode × List Char) :=
  ((List.range rack.length).foldl
    (fun (acc : List (Char × Bool × TrieNode × List Char) × List Char) ri =>
      let tile := rack.getD ri ' '
      if tile = '?' then
        ASCII_UPPERCASE.foldl
          (fun (acc2 : List (Char × Bool × TrieNode × List Char) × List Char) ch =>
            if acc2.2.contains ch then acc2
            else
              match node.find ch with
              | some child => (acc2.1 ++ [(ch, true, child, rack.eraseIdx ri)], ch :: acc2.2)
              | none => acc2)
          acc
      else if acc.2.contains tile then acc
      else
        match node.find tile with
        | some child => (acc.1 ++ [(tile, false, child, rack.eraseIdx ri)], tile :: acc.2)
        | none => acc)
    ([], [])).1

/-- The recursive `_fill` of `_try_placements` (`engine.py` lines
178-235).  The span is the list of `(position, fixed letter)` pairs
still to fill; `placed` is the accumulator; moves are emitted at the end
of the span when the trie node is terminal and the scorer accepts. -/
def fill (b : Board) (words : List (List Char)) (startR startC : Int)
    (direction : String) (fixedAll : List (Option Char)) :
    List ((Int × Int) × Option Char) → TrieNode → List Placed → List Char →
    List Move
  | [], node, placed, _ =>
    if node.is_terminal then
      match validateAndScore b words (rebuildWord fixedAll placed) startR startC
          direction placed with
      | some m => [m]
      | none => []
    else []
  | (_, some ch) :: rest, node, placed, rack =>
    match node.find ch with
    | some child => fill b words startR startC direction fixedAll rest child placed rack
    | none => []
  | ((r, c), none) :: rest, node, placed, rack =>
    (rackChoices node rack).flatMap (fun choice =>
      fill b words startR startC direction fixedAll rest choice.2.2.1
        (placed ++ [⟨choice.1, r, c, choice.2.1⟩]) choice.2.2.2)

/-- The body shared by both `_try_placements` implementations after any
rejection checks (`engine.py` lines 158-236 and `crossplay_engine.py`
lines 451-529, which are textually identical): build `positions` and
`fixed` (returning no moves if the span leaves the board), reject when
no tile or too many tiles are needed, then run the trie-guided fill. -/
def tryPlacementsCore (b : Board) (words : List (List Char)) (trie : TrieNode)
    (rack : List Char) (startR startC : Int) (direction : String) (L : Nat) :
    List Move :=
  let dr : Int := if direction = "V" then 1 else 0
  let dc : Int := if direction = "H" then 1 else 0
  let idxs := intRange L
  if idxs.all (fun i =>
      decide (startR + i * dr < BOARD_SIZE) && decide (startC + i * dc < BOARD_SIZE)) then
    let positions := idxs.map (fun i => (startR + i * dr, startC + i * dc))
    let fixed := positions.map (fun p => (b.get p.1 p.2).map Char.toUpper)
    let tilesNeeded := (fixed.filter Option.isNone).length
    if tilesNeeded = 0 ∨ rack.length < tilesNeeded then []
    else fill b words startR startC direction fixed (positions.zip fixed) trie [] rack
  else []

namespace Engine

/-- `MoveEngine._try_placements` of the package engine (`engine.py`
lines 133-236): reject if the cell immediately before the span start or
immediately after the span end is occupied, then run the shared body. -/
def try_placements (b : Board) (words : List (List Char)) (trie : TrieNode)
    (rack : List Char) (startR startC : Int) (direction : String) (L : Nat) :
    List Move :=
  let dr : Int := if direction = "V" then 1 else 0
  let dc : Int := if direction = "H" then 1 else 0
  let beforeR := startR - dr
  let beforeC := startC - dc
  if decide (0 ≤ beforeR) && decide (beforeR < BOARD_SIZE) && decide (0 ≤ beforeC) &&
      decide (beforeC < BOARD_SIZE) && b.is_occupied beforeR beforeC then []
  else
    let afterR := startR + (L : Int) * dr
    let afterC := startC + (L : Int) * dc
    if decide (0 ≤ afterR) && decide (afterR < BOARD_SIZE) && decide (0 ≤ afterC) &&
        decide (afterC < BOARD_SIZE) && b.is_occupied afterR afterC then []
    else tryPlacementsCore b words trie rack startR startC direction L

end Engine

namespace CPE

/-- `MoveEngine._try_placements` of the monolithic engine
(`crossplay_engine.py` lines 437-529): identical to the package version
except that the adjacent-occupied-cell rejection is absent. -/
def try_placements (b : Board) (words : List (List Char)) (trie : TrieNode)
    (rack : List Char) (startR startC : Int) (direction : String) (L : Nat) :
    List Move :=
  tryPlacementsCore b words trie rack startR startC direction L

end CPE

/-- `MoveEngine._find_anchors` (`engine.py` lines 71-82): the empty
cells orthogonally adjacent to at least one occupied cell.  The Python
code collects them in a `set`; the embedding lists each such cell once,
in row-major order (the set's iteration order is unspecified in Python;
every claim proved below is insensitive to this order).  The Python
bounds test on the neighbour is subsumed by `is_occupied`, which is
false out of range. -/
def find_anchors (b : Board) : List (Int × Int) :=
  (intRange 15).flatMap (fun r =>
    (intRange 15).filterMap (fun c =>
      if b.is_empty r c &&
          ([((-1 : Int), (0 : Int)), (1, 0), (0, -1), (0, 1)].any (fun d =>
            b.is_occupied (r + d.1) (c + d.2))) then
        some (r, c)
      else none))

/-- Python `range(lo, hi)` over integers. -/
def intRangeFromTo (lo hi : Int) : List Int :=
  (List.range (hi - lo).toNat).map (fun i => lo + (i : Int))

/-- The `for length in range(2, max_length + 1)` loop of
`_generate_moves_at_anchor` (`engine.py` lines 117-128), with its
`break` when the span end leaves the board and its `continue` when the
span misses the anchor. -/
def lengthsGo (b : Board) (words : List (List Char)) (trie : TrieNode)
    (rack : List Char) (anchorR anchorC startR startC : Int)
    (direction : String) : List Nat → List Move
  | [] => []
  | L :: Ls =>
    let dr : Int := if direction = "V" then 1 else 0
    let dc : Int := if direction = "H" then 1 else 0
    let endR := startR + ((L : Int) - 1) * dr
    let endC := startC + ((L : Int) - 1) * dc
    if BOARD_SIZE ≤ endR ∨ BOARD_SIZE ≤ endC then []
    else
      let anchorIdx := if dr ≠ 0 then anchorR - startR else anchorC - startC
      if anchorIdx < 0 ∨ (L : Int) ≤ anchorIdx then
        lengthsGo b words trie rack anchorR anchorC startR startC direction Ls
      else
        Engine.try_placements b words trie rack startR startC direction L ++
          lengthsGo b words trie rack anchorR anchorC startR startC direction Ls

/-- `MoveEngine._generate_moves_at_anchor` (`engine.py` lines 84-129):
walk back over the existing prefix tiles, forward over the suffix tiles,
and try every candidate length whose span fits and covers the anchor. -/
def generate_moves_at_anchor (b : Board) (words : List (List Char))
    (trie : TrieNode) (rack : List Char) (anchorR anchorC : Int)
    (direction : String) : List Move :=
  let dr : Int := if direction = "V" then 1 else 0
  let dc : Int := if direction = "H" then 1 else 0
  let preLen : Nat := (walkRun 16 b (anchorR - dr) (anchorC - dc) (-dr) (-dc)).length
  let startR := anchorR - (preLen : Int) * dr
  let startC := anchorC - (preLen : Int) * dc
  let suffixTiles : Nat := (walkRun 16 b (anchorR + dr) (anchorC + dc) dr dc).length
  let maxLength : Nat := min (preLen + rack.length + suffixTiles + 1) 15
  lengthsGo b words trie rack anchorR anchorC startR startC direction
    (List.range' 2 (maxLength + 1 - 2))

/-- `MoveEngine._generate_first_moves` (`engine.py` lines 55-69): every
span through the centre square, horizontally and vertically, for each
length from 2 to the rack size. -/
def generate_first_moves (b : Board) (words : List (List Char))
    (trie : TrieNode) (rack : List Char) : List Move :=
  (List.range' 2 (min (rack.length + 1) 16 - 2)).flatMap (fun L =>
    (intRangeFromTo (max 0 (CENTER - (L : Int) + 1))
        (min (CENTER + 1) (BOARD_SIZE - (L : Int) + 1))).flatMap (fun sc =>
      if decide (sc ≤ CENTER) && decide (CENTER < sc + (L : Int)) then
        Engine.try_placements b words trie rack CENTER sc "H" L
      else []) ++
    (intRangeFromTo (max 0 (CENTER - (L : Int) + 1))
        (min (CENTER + 1) (BOARD_SIZE - (L : Int) + 1))).flatMap (fun sr =>
      if decide (sr ≤ CENTER) && decide (CENTER < sr + (L : Int)) then
        Engine.try_placements b words trie rack sr CENTER "V" L
      else []))

/-- `MoveEngine._generate_all_moves` (`engine.py` lines 40-53):
first-move generation on an empty board, otherwise anchor-based
generation for both directions. -/
def generate_all_moves (b : Board) (words : List (List Char))
    (trie : TrieNode) (rack : List Char) : List Move :=
  let rackUpper := rack.map Char.toUpper
  if b.is_board_empty then generate_first_moves b words trie rackUpper
  else
    ["H", "V"].flatMap (fun d =>
      (find_anchors b).flatMap (fun a =>
        generate_moves_at_anchor b words trie rackUpper a.1 a.2 d))

/-- The deduplication key of `find_best_moves`:
`(word, row, col, direction)`. -/
def moveKey (m : Move) : List Char × Int × Int × String :=
  (m.word, m.row, m.col, m.direction)

/-- The `for m in all_moves` deduplication loop of `find_best_moves`
(`engine.py` lines 28-34), keeping the first move seen for each key. -/
def dedupGo : List (List Char × Int × Int × String) → List Move → List Move
  | _, [] => []
  | seen, m :: ms =>
    if seen.contains (moveKey m) then dedupGo seen ms
    else m :: dedupGo (moveKey m :: seen) ms

/-- The comparator of `unique.sort(key=lambda m: m.score, reverse=True)`:
`x` may come before `y` when `y.score ≤ x.score`. -/
def scoreGE (x y : Move) : Bool :=
  decide (y.score ≤ x.score)

/-- Insert a move into an already-sorted list, before the first element
it may precede (keeping it after none of its equals, so earlier input
stays earlier). -/
def pySortInsert (le : Move → Move → Bool) (m : Move) : List Move → List Move
  | [] => [m]
  | x :: xs => if le m x then m :: x :: xs else x :: pySortInsert le m xs

/-- A stable sort with respect to `le`.  Python `list.sort` is stable,
and all stable sorts under the same total preorder produce the same
list, so this insertion sort is a faithful model of
`unique.sort(key=lambda m: m.score, reverse=True)`. -/
def pySort (le : Move → Move → Bool) : List Move → List Move
  | [] => []
  | m :: ms => pySortInsert le m (pySort le ms)

/-- `MoveEngine.find_best_moves` (`engine.py` lines 24-36): generate,
deduplicate keeping first-seen, stably sort by score descending,
truncate to `top_n`. -/
def find_best_moves (b : Board) (words : List (List Char)) (trie : TrieNode)
    (rack : List Char) (topN : Nat) : List Move :=
  let allMoves := generate_all_moves b words trie rack
  let unique := dedupGo [] allMoves
  (pySort scoreGE unique).take topN

/-- The Crossplay tile distribution (`bag.py` lines 16-22), total 100. -/
def TILE_DISTRIBUTION : List (Char × Nat) :=
  [('A', 9), ('B', 2), ('C', 2), ('D', 4), ('E', 12), ('F', 2), ('G', 3),
   ('H', 3), ('I', 8), ('J', 1), ('K', 1), ('L', 4), ('M', 2), ('N', 5),
   ('O', 8), ('P', 2), ('Q', 1), ('R', 6), ('S', 5), ('T', 6), ('U', 3),
   ('V', 2), ('W', 2), ('X', 1), ('Y', 2), ('Z', 1), ('?', 3)]

/-- The mutable `pool` dict of `remaining_tiles`: its key list in
insertion order, and its (possibly negative) counts. -/
structure PoolState where
  keys : List Char
  pool : Char → Int

/-- `pool[tile] = pool.get(tile, 0) - 1`: decrement a count, inserting
the key when it is new. -/
def subtractTile (s : PoolState) (t : Char) : PoolState :=
  ⟨if s.keys.contains t then s.keys else s.keys ++ [t],
   fun u => if u = t then s.pool t - 1 else s.pool u⟩

/-- The tiles consumed by the board in the scan order of
`remaining_tiles` (`bag.py` lines 56-66): each occupied cell yields
`'?'` when lowercase (blank played), otherwise its uppercase letter. -/
def boardConsumed (b : Board) : List Char :=
  (intRange 15).flatMap (fun r =>
    (intRange 15).filterMap (fun c =>
      (b.get r c).map (fun ch => if ch.isLower then '?' else ch.toUpper)))

/-- The tiles consumed by the player's rack (`bag.py` lines 68-71). -/
def rackConsumed (rack : List Char) : List Char :=
  rack.map (fun t => if t = '?' then '?' else t.toUpper)

/-- `remaining_tiles` (`bag.py` lines 35-78): full distribution minus
board tiles minus the rack, each count clamped at zero, flattened in the
dict's key order. -/
def remaining_tiles (b : Board) (rack : List Char) : List Char :=
  let init : PoolState :=
    ⟨TILE_DISTRIBUTION.map Prod.fst,
     fun t => (((TILE_DISTRIBUTION.lookup t).getD 0 : Nat) : Int)⟩
  let s1 := (boardConsumed b).foldl subtractTile init
  let s2 := (rackConsumed rack).foldl subtractTile s1
  s2.keys.flatMap (fun t => List.replicate (s2.pool t).toNat t)

/-- Per-tile desirability (`leave.py` lines 28-36).  Python float
constants are idealised as the equal exact rationals throughout the
leave evaluator, written as fractions (0.5 = 1/2 and so on). -/
def TILE_DESIRABILITY (c : Char) : ℚ :=
  match c with
  | 'A' => 1/2 | 'B' => -2 | 'C' => -(1/2) | 'D' => 1/2 | 'E' => 3/2
  | 'F' => -2 | 'G' => -1 | 'H' => 1/2 | 'I' => 1/2 | 'J' => -4
  | 'K' => -(5/2) | 'L' => 1 | 'M' => -(1/2) | 'N' => 3/2 | 'O' => 0
  | 'P' => -(1/2) | 'Q' => -6 | 'R' => 2 | 'S' => 5 | 'T' => 1
  | 'U' => -(1/2) | 'V' => -4 | 'W' => -(5/2) | 'X' => -1 | 'Y' => -(1/2)
  | 'Z' => -2 | '?' => 15
  | _ => 0

/-- `_balance_penalty` (`leave.py` lines 42-52). -/
def balance_penalty (leave : List Char) : ℚ :=
  if leave = [] then 0
  else
    let n : ℚ := leave.length
    let vowels : ℚ := (leave.filter (fun t => "AEIOU".toList.contains t)).length
    let deviation := vowels / n - 2/5;
    -15 * deviation * deviation * n

/-- `_duplicate_penalty` (`leave.py` lines 57-68): `Counter(leave)`
iterates each distinct tile once; the embedding sums over
`leave.dedup`, which carries the same distinct tiles (summation order
is irrelevant). -/
def duplicate_penalty (leave : List Char) : ℚ :=
  (leave.dedup.map (fun t =>
    if t = '?' then 0
    else
      (if 2 ≤ leave.count t then -3 * ((leave.count t : ℚ) - 1) else 0) +
      (if 3 ≤ leave.count t then -4 else 0))).sum

/-- `_SYNERGY_PAIRS` (`leave.py` lines 75-88).  The Python dict is keyed
by frozensets, so `frozenset("RE")` collides with `frozenset("ER")` and
the dict holds eleven entries (the later assignment keeps the same value
1.5); the embedding lists the eleven distinct sets. -/
def SYNERGY_PAIRS : List (List Char × ℚ) :=
  [(['E', 'R'], 3/2), (['E', 'D'], 1), (['E', 'S'], 3/2), (['E', 'N'], 1),
   (['I', 'N'], 3/2), (['A', 'N'], 1), (['A', 'T'], 1/2), (['S', 'T'], 3/2),
   (['R', 'S'], 1), (['E', 'L'], 1/2), (['E', 'T'], 1/2)]

/-- `_SYNERGY_TRIPLES` (`leave.py` lines 90-99). -/
def SYNERGY_TRIPLES : List (List Char × ℚ) :=
  [(['I', 'N', 'G'], 7/2), (['E', 'R', 'S'], 3), (['E', 'S', 'T'], 5/2),
   (['I', 'E', 'S'], 5/2), (['E', 'N', 'T'], 2), (['A', 'T', 'E'], 3/2),
   (['A', 'N', 'E'], 3/2), (['I', 'N', 'E'], 3/2)]

/-- `_synergy_bonus` (`leave.py` lines 101-109): a combo scores when its
letter-set is contained in the leave's letter-set. -/
def synergy_bonus (leave : List Char) : ℚ :=
  ((SYNERGY_PAIRS.filter (fun p => p.1.all (fun c => leave.contains c))).map
    Prod.snd).sum +
  ((SYNERGY_TRIPLES.filter (fun p => p.1.all (fun c => leave.contains c))).map
    Prod.snd).sum

/-- `_q_without_u` (`leave.py` lines 114-117). -/
def q_without_u (leave : List Char) : ℚ :=
  if leave.contains 'Q' && !(leave.contains 'U') then -8 else 0

/-- Rounding to the nearest integer, `⌊q + 1/2⌋`, computed on the
numerator and denominator so that it evaluates in the kernel. -/
def ratRound (q : ℚ) : ℤ :=
  (2 * q.num + q.den).fdiv (2 * q.den)

/-- `round(x, 1)`: the embedding rounds the exact rational to the
nearest tenth (the same rounding is used on both sides of every claim
about the evaluator). -/
def roundTenth (q : ℚ) : ℚ :=
  ((ratRound (10 * q) : ℤ) : ℚ) / 10

/-- `evaluate_leave` (`leave.py` lines 122-155). -/
def evaluate_leave (leave : List Char) : ℚ :=
  if leave = [] then 0
  else
    roundTenth ((leave.map TILE_DESIRABILITY).sum + balance_penalty leave +
      duplicate_penalty leave + synergy_bonus leave + q_without_u leave)

/-- Applying a candidate move to the board copy, `simulation.py` lines
74-79: each used tile is set, lowercased on a blank position.  The value
semantics of `Board` make `board.copy()` the identity; the aliasing
aspect of the copy is verified separately through the heap model below. -/
def applyMoveToBoard (b : Board) (m : Move) : Board :=
  m.tiles_used.foldl (fun bb t =>
    if m.blank_positions.contains (t.2.1, t.2.2) then
      bb.set t.2.1 t.2.2 (some t.1.toLower)
    else bb.set t.2.1 t.2.2 (some t.1)) b

/-- Computing `rack_after`, `simulation.py` lines 82-89: for each used
tile, remove one matching rack tile (the blank `'?'` when the position
was a blank) when present. -/
def rackAfterMove (rack : List Char) (m : Move) : List Char :=
  m.tiles_used.foldl (fun acc t =>
    let tile := if m.blank_positions.contains (t.2.1, t.2.2) then '?' else t.1.toUpper
    if acc.contains tile then acc.erase tile else acc) rack

/-- The deterministic set-up phase of `simulate_move` (`simulation.py`
lines 71-92): the post-move board, the remaining own rack, and the
unseen pool. -/
def simulateMoveSetup (b : Board) (m : Move) (myRack : List Char) :
    Board × List Char × List Char :=
  let simBoard := applyMoveToBoard b m
  let rackAfter := rackAfterMove myRack m
  (simBoard, rackAfter, remaining_tiles simBoard rackAfter)

/-- Whether a call to `simulate_move` reaches the opponent-response call
`engine.find_best_moves(sim_board, opp_rack, top_n=1, use_leave_eval=False)`
at `simulation.py` lines 101-103: the unseen pool is non-empty (so the
early return at line 91 is not taken) and at least one trial runs. -/
def simulateMoveReachesOpponentCall (b : Board) (m : Move) (myRack : List Char)
    (nSims : Nat) : Bool :=
  let s := simulateMoveSetup b m myRack
  !(s.2.2.isEmpty) && decide (1 ≤ nSims)

/-!
A minimal heap model of the Python objects touched by `simulate_move`,
used to verify its frame property (claim C9): the function mutates only
the board copy made by `Board.copy` and the rack list copy made by
`list(my_rack)`, never the caller's objects.

A heap maps references to lists of cells; a board is a list of fifteen
row references (`Board.copy`, `board.py` lines 57-62, allocates fresh
rows with `self.cells[r][:]`); a rack is a single reference whose
entries are all `some`.  After the set-up phase modelled here
(`simulation.py` lines 74-89), the rest of `simulate_move` (lines
90-113) only reads: `remaining_tiles`, `rng.sample` and
`engine.find_best_moves` perform no writes to any board or rack object.
-/

/-- The heap: allocated cell-lists, and the next fresh reference. -/
structure PyHeap where
  data : Nat → List (Option Char)
  next : Nat

/-- Allocate a fresh object. -/
def PyHeap.alloc (h : PyHeap) (v : List (Option Char)) : PyHeap × Nat :=
  (⟨fun i => if i = h.next then v else h.data i, h.next + 1⟩, h.next)

/-- Overwrite the object at a reference. -/
def PyHeap.write (h : PyHeap) (r : Nat) (v : List (Option Char)) : PyHeap :=
  ⟨fun i => if i = r then v else h.data i, h.next⟩

/-- Read a board cell through the heap (`Board.get` with the row list
indirected through row references). -/
def readCell (h : PyHeap) (rows : List Nat) (r c : Int) : Option Char :=
  if 0 ≤ r ∧ r < BOARD_SIZE ∧ 0 ≤ c ∧ c < BOARD_SIZE then
    (h.data (rows.getD r.toNat 0)).getD c.toNat none
  else none

/-- `Board.copy`: allocate a fresh copy of every row, in order. -/
def copyRows : PyHeap → List Nat → PyHeap × List Nat
  | h, [] => (h, [])
  | h, r :: rest =>
    let a := h.alloc (h.data r)
    let rec1 := copyRows a.1 rest
    (rec1.1, a.2 :: rec1.2)

/-- `Board.set` through the heap: mutate the addressed row in place
(bounds-guarded exactly as `board.py` lines 23-26). -/
def hset (h : PyHeap) (rows : List Nat) (r c : Int) (v : Option Char) : PyHeap :=
  if 0 ≤ r ∧ r < BOARD_SIZE ∧ 0 ≤ c ∧ c < BOARD_SIZE then
    let ref := rows.getD r.toNat 0
    h.write ref ((h.data ref).set c.toNat v)
  else h

/-- `if tile in rack_after: rack_after.remove(tile)` through the heap. -/
def rackRemoveStep (h : PyHeap) (ref : Nat) (tile : Char) : PyHeap :=
  let l := h.data ref
  if l.contains (some tile) then h.write ref (l.erase (some tile)) else h

/-- The mutating set-up phase of `simulate_move` (`simulation.py` lines
74-89) over the heap: copy the board, play the candidate's tiles onto
the copy, copy the rack, remove the consumed tiles from the rack copy.
Returns the heap together with the copies' references. -/
def simulateMoveHeap (h : PyHeap) (boardRows : List Nat) (rackRef : Nat)
    (tiles : List (Char × Int × Int)) (blanks : List (Int × Int)) :
    PyHeap × List Nat × Nat :=
  let hc := copyRows h boardRows
  let h2 := tiles.foldl (fun hh t =>
    if blanks.contains (t.2.1, t.2.2) then hset hh hc.2 t.2.1 t.2.2 (some t.1.toLower)
    else hset hh hc.2 t.2.1 t.2.2 (some t.1)) hc.1
  let ha := h2.alloc (h2.data rackRef)
  let h4 := tiles.foldl (fun hh t =>
    let tile := if blanks.contains (t.2.1, t.2.2) then '?' else t.1.toUpper
    rackRemoveStep hh ha.2 tile) ha.1
  (h4, hc.2, ha.2)

/-!  Concrete boards, dictionaries and moves used in witnesses and
counterexamples. -/

/-- A one-word dictionary containing HELLO. -/
def helloWords : List (List Char) := ["HELLO".toList]

/-- Trie of the HELLO dictionary. -/
def helloTrie : TrieNode := buildTrie helloWords

/-- The rack H, E, L, L, O. -/
def helloRack : List Char := "HELLO".toList

/-- A one-word dictionary containing AT. -/
def atWords : List (List Char) := ["AT".toList]

/-- Trie of the AT dictionary. -/
def atTrie : TrieNode := buildTrie atWords

/-- A board with a single tile S at (7, 7). -/
def sBoard : Board := mkBoard [(7, 7, 'S')]

/-- A board carrying two Q tiles (more than the bag holds). -/
def doubleQBoard : Board := mkBoard [(0, 0, 'Q'), (0, 1, 'Q')]

/-- The move AT played horizontally at (7, 6) on an empty board. -/
def atMove : Move :=
  { word := "AT".toList, row := 7, col := 6, direction := "H", score := 2,
    tiles_used := [('A', 7, 6), ('T', 7, 7)], cross_words := [],
    is_sweep := false, blank_positions := [] }

/-- A one-word dictionary containing AS. -/
def asWords : List (List Char) := [['A', 'S']]

/-- Trie of the AS dictionary. -/
def asTrie : TrieNode := buildTrie asWords

/-- The move AS played horizontally at (7, 6) through the S at (7, 7). -/
def asMove : Move :=
  { word := ['A', 'S'], row := 7, col := 6, direction := "H", score := 2,
    tiles_used := [('A', 7, 6)], cross_words := [], is_sweep := false,
    blank_positions := [] }

/-!  General lemmas about the board. -/

/-- An occupied cell is in range: `get` returns `none` out of range. -/
theorem is_occupied_inRange {b : Board} {r c : Int}
    (h : b.is_occupied r c = true) :
    0 ≤ r ∧ r < BOARD_SIZE ∧ 0 ≤ c ∧ c < BOARD_SIZE := by
  by_contra hc
  simp only [Board.is_occupied, Board.is_empty, Board.get, hc, if_false,
    Option.isNone_none, Bool.not_true] at h
  exact Bool.false_ne_true h

/-!  C1.  Empty board, dictionary {HELLO}, rack H,E,L,L,O: the move
HELLO at (7,5) horizontal.  The claim expects score 26 with the star
acting as a double-word square; `_validate_and_score` has no case for
the `"*"` bonus value, so the star carries no multiplier and the score
is the plain main sum 13. -/

/-- C1 (counterexample): the engine generates exactly one move with key
(HELLO, 7, 5, H), and its score is 13, not the claimed 26. -/
theorem C1_counterexample :
    ((find_best_moves Board.empty helloWords helloTrie helloRack 100).filter
      (fun m => decide (moveKey m = ("HELLO".toList, 7, 5, "H")))).map Move.score
      = [13] := by
  rfl

/-- C1 (amended): on an empty board with dictionary {HELLO} and rack
H,E,L,L,O, the move placing HELLO horizontally at (7,5) is generated
with score exactly 13: DL doubles H and O for a main sum of 13, and the
center star at (7,7) applies no multiplier. -/
theorem C1_hello_score_13 :
    (find_best_moves Board.empty helloWords helloTrie helloRack 100).contains
      { word := "HELLO".toList, row := 7, col := 5, direction := "H", score := 13,
        tiles_used := [('H', 7, 5), ('E', 7, 6), ('L', 7, 7), ('L', 7, 8), ('O', 7, 9)],
        cross_words := [], is_sweep := false, blank_positions := [] } = true := by
  rfl

/-!  C2.  The package `_try_placements` rejects a span whose
neighbouring cell along the main axis is occupied; the monolithic
`crossplay_engine.py` version has no such rejection. -/

/-- C2 (amended): the package engine's `_try_placements` produces no
moves whenever the cell immediately before the span start or
immediately after the span end is occupied. -/
theorem C2_engine_rejects_adjacent (b : Board) (words : List (List Char))
    (trie : TrieNode) (rack : List Char) (startR startC : Int)
    (direction : String) (L : Nat)
    (h : b.is_occupied (startR - (if direction = "V" then 1 else 0))
           (startC - (if direction = "H" then 1 else 0)) = true ∨
         b.is_occupied (startR + (L : Int) * (if direction = "V" then 1 else 0))
           (startC + (L : Int) * (if direction = "H" then 1 else 0)) = true) :
    Engine.try_placements b words trie rack startR startC direction L = [] := by
  rcases h with h | h
  · have hr := is_occupied_inRange h
    have hA : (decide (0 ≤ startR - (if direction = "V" then 1 else 0)) &&
        decide (startR - (if direction = "V" then 1 else 0) < BOARD_SIZE) &&
        decide (0 ≤ startC - (if direction = "H" then 1 else 0)) &&
        decide (startC - (if direction = "H" then 1 else 0) < BOARD_SIZE) &&
        b.is_occupied (startR - (if direction = "V" then 1 else 0))
          (startC - (if direction = "H" then 1 else 0))) = true := by
      simp only [Bool.and_eq_true, decide_eq_true_eq]
      exact ⟨⟨⟨⟨hr.1, hr.2.1⟩, hr.2.2.1⟩, hr.2.2.2⟩, h⟩
    simp only [Engine.try_placements]
    rw [if_pos hA]
  · have hr := is_occupied_inRange h
    have hB : (decide (0 ≤ startR + (L : Int) * (if direction = "V" then 1 else 0)) &&
        decide (startR + (L : Int) * (if direction = "V" then 1 else 0) < BOARD_SIZE) &&
        decide (0 ≤ startC + (L : Int) * (if direction = "H" then 1 else 0)) &&
        decide (startC + (L : Int) * (if direction = "H" then 1 else 0) < BOARD_SIZE) &&
        b.is_occupied (startR + (L : Int) * (if direction = "V" then 1 else 0))
          (startC + (L : Int) * (if direction = "H" then 1 else 0))) = true := by
      simp only [Bool.and_eq_true, decide_eq_true_eq]
      exact ⟨⟨⟨⟨hr.1, hr.2.1⟩, hr.2.2.1⟩, hr.2.2.2⟩, h⟩
    simp only [Engine.try_placements]
    by_cases hA : (decide (0 ≤ startR - (if direction = "V" then 1 else 0)) &&
        decide (startR - (if direction = "V" then 1 else 0) < BOARD_SIZE) &&
        decide (0 ≤ startC - (if direction = "H" then 1 else 0)) &&
        decide (startC - (if direction = "H" then 1 else 0) < BOARD_SIZE) &&
        b.is_occupied (startR - (if direction = "V" then 1 else 0))
          (startC - (if direction = "H" then 1 else 0))) = true
    · rw [if_pos hA]
    · rw [if_neg hA, if_pos hB]

/-- C2 (witness): the rejection at a concrete input: on the board with
S at (7,7), the span (7,5)-(7,6) horizontal of length 2 ends right
before the occupied (7,7) and yields no moves. -/
theorem C2_engine_rejects_adjacent_witness :
    Engine.try_placements sBoard atWords atTrie ['A', 'T'] 7 5 "H" 2 = [] :=
  C2_engine_rejects_adjacent sBoard atWords atTrie ['A', 'T'] 7 5 "H" 2
    (Or.inr (by decide))

/-- C2 (counterexample): the monolithic engine's `_try_placements`
produces a move on that same span — the cell (7,7) immediately after
the span end is occupied, yet the move AT at (7,5) is generated — so
the rejection does not hold in both implementations. -/
theorem C2_counterexample :
    sBoard.is_occupied 7 7 = true ∧
    CPE.try_placements sBoard atWords atTrie ['A', 'T'] 7 5 "H" 2 ≠ [] := by
  constructor
  · rfl
  · decide

/-!  C3.  `simulate_move` (`simulation.py` line 101) calls
`engine.find_best_moves(sim_board, opp_rack, top_n=1, use_leave_eval=False)`,
but `MoveEngine.find_best_moves` (`engine.py` line 24) has signature
`(self, board, rack, top_n=10)` and accepts no `use_leave_eval`
parameter, so the call raises `TypeError` whenever it is reached; the
claimed return value `round(move.score − avg_opp, 1)` is never
produced.  (`gui.py` line 287 passes `use_leave_eval=True` to the same
method, confirming the parameter was intended.)  The theorem shows a
concrete input on which the faulty call is reached: the unseen pool
after the move is non-empty and one trial runs. -/

/-- C3: with the empty pre-move board, candidate AT at (7,6) and own
rack [A, T], the unseen pool is non-empty and `n_simulations = 1`, so
`simulate_move` reaches the opponent-response call that passes the
unsupported `use_leave_eval` keyword. -/
theorem C3_opponent_call_reached :
    simulateMoveReachesOpponentCall Board.empty atMove ['A', 'T'] 1 = true := by
  rfl

/-!  C10.  `Board.get` and `Board.set` are total at the public
interface, but `Board.get_bonus` indexes `BONUS_GRID` with the raw
coordinates and raises `IndexError` for row or column ≥ 15. -/

/-- C10 (amended): for every row and column outside 0..14, `Board.get`
returns `None` (so `is_empty` is true and `is_occupied` is false) and
`Board.set` leaves every cell unchanged; `Board.get_bonus`, however, is
not total (see the counterexample). -/
theorem C10_get_set_total (b : Board) (row col : Int) (v : Option Char)
    (h : row < 0 ∨ BOARD_SIZE ≤ row ∨ col < 0 ∨ BOARD_SIZE ≤ col) :
    b.get row col = none ∧ b.is_empty row col = true ∧
    b.is_occupied row col = false ∧
    ∀ r c, (b.set row col v).get r c = b.get r c := by
  have hc : ¬(0 ≤ row ∧ row < BOARD_SIZE ∧ 0 ≤ col ∧ col < BOARD_SIZE) := by
    simp only [BOARD_SIZE] at h ⊢
    omega
  refine ⟨?_, ?_, ?_, ?_⟩
  · simp only [Board.get, hc, if_false]
  · simp only [Board.is_empty, Board.get, hc, if_false, Option.isNone_none]
  · simp only [Board.is_occupied, Board.is_empty, Board.get, hc, if_false,
      Option.isNone_none, Bool.not_true]
  · intro r c
    simp only [Board.set, hc, if_false]

/-- C10 (witness): the amended totality at a concrete out-of-range
access: reading (15, 0) on the empty board gives `None`, and setting
(15, 0) does not change cell (7, 7). -/
theorem C10_get_set_total_witness :
    Board.empty.get 15 0 = none ∧
    (Board.empty.set 15 0 (some 'A')).get 7 7 = Board.empty.get 7 7 :=
  ⟨(C10_get_set_total Board.empty 15 0 (some 'A') (by decide)).1,
   (C10_get_set_total Board.empty 15 0 (some 'A') (by decide)).2.2.2 7 7⟩

/-- C10 (counterexample): `Board.get_bonus` raises `IndexError`
(modelled as `none`) at row 15 on the empty board, although
`is_occupied` is false there, refuting "no board operation raises an
index error". -/
theorem C10_counterexample :
    Board.empty.get_bonus 15 0 = none ∧
    Board.empty.is_occupied 15 0 = false := by
  decide

/-!  C4.  Unseen-pool accounting.  The identity
`|unseen| + |rack| + board_tiles = 100` holds for game states that do
not over-consume any tile type; the per-tile clamping
(`max(0, count)` in `bag.py` line 76) breaks it otherwise. -/

/-- The bag count of a tile type. -/
def bagDist (t : Char) : Nat :=
  (TILE_DISTRIBUTION.lookup t).getD 0

/-- The tile types of the distribution, the initial keys of the pool. -/
def bagKeys : List Char :=
  TILE_DISTRIBUTION.map Prod.fst

/-- One pool decrement changes exactly the decremented count. -/
theorem subtractTile_pool (s : PoolState) (a t : Char) :
    (subtractTile s a).pool t = s.pool t - (if t = a then 1 else 0) := by
  simp only [subtractTile]
  split_ifs with h
  · subst h
    rfl
  · omega

/-- Folding the pool decrement over a tile list subtracts each tile's
multiplicity. -/
theorem foldl_subtractTile_pool (l : List Char) :
    ∀ (s : PoolState) (t : Char),
      (l.foldl subtractTile s).pool t = s.pool t - (l.count t : Int) := by
  induction l with
  | nil => intro s t; simp
  | cons a l ih =>
    intro s t
    rw [List.foldl_cons, ih, subtractTile_pool, List.count_cons]
    by_cases h : a = t
    · subst h
      simp
      omega
    · have h2 : ¬(t = a) := fun hh => h hh.symm
      simp [h, h2]

/-- Folding the pool decrement over tiles whose types are already keys
leaves the key list unchanged. -/
theorem foldl_subtractTile_keys (l : List Char) :
    ∀ (s : PoolState), (∀ t ∈ l, s.keys.contains t = true) →
      (l.foldl subtractTile s).keys = s.keys := by
  induction l with
  | nil => intro s _; rfl
  | cons a l ih =>
    intro s hmem
    have hk : (subtractTile s a).keys = s.keys := by
      simp only [subtractTile, hmem a (List.mem_cons_self a l), if_true]
    rw [List.foldl_cons, ih (subtractTile s a) (by
      intro t ht
      rw [hk]
      exact hmem t (List.mem_cons_of_mem a ht)), hk]

/-- The length of a flattened list of replications is the sum of the
replication counts. -/
theorem length_flatMap_replicate (f : Char → Nat) (l : List Char) :
    (l.flatMap (fun t => List.replicate (f t) t)).length = (l.map f).sum := by
  induction l with
  | nil => rfl
  | cons a l ih => simp [List.flatMap_cons, ih]

/-- Sums of pointwise differences split. -/
theorem sum_map_sub_int (f g : Char → Int) (l : List Char) :
    (l.map (fun t => f t - g t)).sum = (l.map f).sum - (l.map g).sum := by
  induction l with
  | nil => simp
  | cons a l ih => simp [ih]; ring

/-- Summing an indicator over a duplicate-free list containing the
marked element yields one. -/
theorem sum_indicator_nodup (keys : List Char) (a : Char)
    (hnd : keys.Nodup) (ha : a ∈ keys) :
    (keys.map (fun t => if t = a then (1 : Int) else 0)).sum = 1 := by
  induction keys with
  | nil => cases ha
  | cons k ks ih =>
    by_cases hk : k = a
    · subst hk
      have hnotin : k ∉ ks := (List.nodup_cons.mp hnd).1
      have hz : (ks.map (fun t => if t = k then (1 : Int) else 0)).sum = 0 := by
        rw [List.sum_eq_zero]
        intro x hx
        rcases List.mem_map.mp hx with ⟨t, ht, rfl⟩
        have hne : ¬(t = k) := fun hh => hnotin (hh ▸ ht)
        simp [hne]
      simp [hz]
    · have ha2 : a ∈ ks := by
        rcases List.mem_cons.mp ha with h | h
        · exact absurd h.symm hk
        · exact h
      simp [hk, ih (List.nodup_cons.mp hnd).2 ha2]

/-- Summing multiplicities over a duplicate-free list of keys covering
every element gives the length. -/
theorem sum_count_over_keys (keys : List Char) (hnd : keys.Nodup) :
    ∀ (l : List Char), (∀ x ∈ l, x ∈ keys) →
      (keys.map (fun t => (l.count t : Int))).sum = l.length := by
  intro l
  induction l with
  | nil => intro _; simp
  | cons a l ih =>
    intro hsub
    have hstep : (keys.map (fun t => ((a :: l).count t : Int))) =
        keys.map (fun t => (l.count t : Int) + (if t = a then (1 : Int) else 0)) := by
      apply List.map_congr_left
      intro t _
      rw [List.count_cons]
      by_cases h : a = t
      · subst h
        simp
      · have h2 : ¬(t = a) := fun hh => h hh.symm
        simp [h, h2]
    rw [hstep]
    have hsplit : (keys.map (fun t => (l.count t : Int) + (if t = a then (1 : Int) else 0))).sum =
        (keys.map (fun t => (l.count t : Int))).sum +
        (keys.map (fun t => if t = a then (1 : Int) else 0)).sum := by
      clear hstep hsub ih hnd
      induction keys with
      | nil => simp
      | cons k ks ihk =>
        simp only [List.map_cons, List.sum_cons, ihk]
        ring
    rw [hsplit, ih (fun x hx => hsub x (List.mem_cons_of_mem a hx)),
      sum_indicator_nodup keys a hnd (hsub a (List.mem_cons_self a l))]
    simp only [List.length_cons]
    push_cast
    ring

/-- Sums of clamped nonnegative integers coincide with the integer sum. -/
theorem sum_toNat_of_nonneg (g : Char → Int) (l : List Char)
    (h : ∀ t ∈ l, 0 ≤ g t) :
    ((l.map (fun t => (g t).toNat)).sum : Int) = (l.map g).sum := by
  induction l with
  | nil => simp
  | cons a l ih =>
    have ha : 0 ≤ g a := h a (List.mem_cons_self a l)
    have hl : ∀ t ∈ l, 0 ≤ g t := fun t ht => h t (List.mem_cons_of_mem a ht)
    simp only [List.map_cons, List.sum_cons, Nat.cast_add]
    rw [Int.toNat_of_nonneg ha, ih hl]

/-- The board-consumed list has one entry per occupied cell. -/
theorem boardConsumed_length (b : Board) :
    (boardConsumed b).length = b.count_tiles := by
  have hrow : ∀ (r : Int) (l : List Int),
      ((l.filterMap (fun c => (b.get r c).map
        (fun ch => if ch.isLower then '?' else ch.toUpper))).length) =
      ((l.filter (fun c => b.is_occupied r c)).length) := by
    intro r l
    induction l with
    | nil => rfl
    | cons c l ih =>
      cases h : b.get r c with
      | none =>
        simp [List.filterMap_cons, List.filter_cons, h, Board.is_occupied,
          Board.is_empty, ih]
      | some ch =>
        simp [List.filterMap_cons, List.filter_cons, h, Board.is_occupied,
          Board.is_empty, ih]
  have haux : ∀ (rows : List Int),
      ((rows.flatMap (fun r => (intRange 15).filterMap (fun c => (b.get r c).map
        (fun ch => if ch.isLower then '?' else ch.toUpper)))).length) =
      ((rows.map (fun r =>
        ((intRange 15).filter (fun c => b.is_occupied r c)).length)).sum) := by
    intro rows
    induction rows with
    | nil => rfl
    | cons r rows ih =>
      simp only [List.flatMap_cons, List.map_cons, List.sum_cons,
        List.length_append, ih, hrow r]
  exact haux (intRange 15)

/-- C4 (amended): for every board and rack that together do not consume
more copies of any tile type than the bag holds (and whose consumed tile
types all belong to the distribution), the unseen pool computed by
`remaining_tiles` satisfies
`|unseen| + |rack| + board_tile_count = 100`, lowercase board cells
counting as consumed blanks. -/
theorem C4_accounting (b : Board) (rack : List Char)
    (h1 : ∀ t ∈ boardConsumed b, t ∈ bagKeys)
    (h2 : ∀ t ∈ rackConsumed rack, t ∈ bagKeys)
    (h3 : ∀ t ∈ bagKeys,
      (boardConsumed b).count t + (rackConsumed rack).count t ≤ bagDist t) :
    (remaining_tiles b rack).length + rack.length + b.count_tiles = 100 := by
  have hkeysnd : bagKeys.Nodup := by decide
  set cb := boardConsumed b with hcb
  set cr := rackConsumed rack with hcr
  -- the pool after both folds
  have hpool : ∀ t,
      ((cr.foldl subtractTile (cb.foldl subtractTile
        ⟨TILE_DISTRIBUTION.map Prod.fst,
         fun t => (((TILE_DISTRIBUTION.lookup t).getD 0 : Nat) : Int)⟩)).pool t)
      = (bagDist t : Int) - cb.count t - cr.count t := by
    intro t
    rw [foldl_subtractTile_pool, foldl_subtractTile_pool]
    simp only [bagDist]
  have hcont : ∀ t, t ∈ bagKeys → bagKeys.contains t = true := by
    intro t ht
    exact List.elem_eq_true_of_mem ht
  have hkeys : ((cr.foldl subtractTile (cb.foldl subtractTile
      ⟨TILE_DISTRIBUTION.map Prod.fst,
       fun t => (((TILE_DISTRIBUTION.lookup t).getD 0 : Nat) : Int)⟩)).keys)
      = bagKeys := by
    have hk1 : ((cb.foldl subtractTile
        ⟨TILE_DISTRIBUTION.map Prod.fst,
         fun t => (((TILE_DISTRIBUTION.lookup t).getD 0 : Nat) : Int)⟩).keys)
        = bagKeys := by
      apply foldl_subtractTile_keys
      intro t ht
      exact hcont t (h1 t ht)
    rw [foldl_subtractTile_keys, hk1]
    intro t ht
    rw [hk1]
    exact hcont t (h2 t ht)
  -- length of the remaining list
  have hlen : (remaining_tiles b rack).length =
      (bagKeys.map (fun t =>
        ((bagDist t : Int) - cb.count t - cr.count t).toNat)).sum := by
    unfold remaining_tiles
    rw [length_flatMap_replicate]
    rw [hkeys]
    congr 1
    apply List.map_congr_left
    intro t _
    rw [hpool]
  have hnonneg : ∀ t ∈ bagKeys,
      (0 : Int) ≤ (bagDist t : Int) - cb.count t - cr.count t := by
    intro t ht
    have := h3 t ht
    omega
  have hsum : ((remaining_tiles b rack).length : Int) =
      (bagKeys.map (fun t => (bagDist t : Int) - cb.count t - cr.count t)).sum := by
    rw [hlen]
    exact sum_toNat_of_nonneg _ _ hnonneg
  have hsplit : (bagKeys.map (fun t =>
      (bagDist t : Int) - cb.count t - cr.count t)).sum =
      (bagKeys.map (fun t => (bagDist t : Int))).sum -
      (bagKeys.map (fun t => (cb.count t : Int))).sum -
      (bagKeys.map (fun t => (cr.count t : Int))).sum := by
    have e1 : (bagKeys.map (fun t =>
        (bagDist t : Int) - cb.count t - cr.count t)) =
        bagKeys.map (fun t =>
          ((fun u => (bagDist u : Int) - cb.count u) t) - ((fun u => (cr.count u : Int)) t)) := rfl
    rw [e1, sum_map_sub_int, sum_map_sub_int]
  have htotal : (bagKeys.map (fun t => (bagDist t : Int))).sum = 100 := by decide
  have hcbsum : (bagKeys.map (fun t => (cb.count t : Int))).sum = cb.length :=
    sum_count_over_keys bagKeys hkeysnd cb h1
  have hcrsum : (bagKeys.map (fun t => (cr.count t : Int))).sum = cr.length :=
    sum_count_over_keys bagKeys hkeysnd cr h2
  have hcbl : cb.length = b.count_tiles := boardConsumed_length b
  have hcrl : cr.length = rack.length := by
    rw [hcr]
    exact List.length_map rack _
  rw [hsplit, htotal, hcbsum, hcrsum, hcbl, hcrl] at hsum
  omega

/-- C4 (witness): the accounting identity at a concrete valid state:
the board holding S at (7,7) and the rack A, T leave 97 unseen tiles. -/
theorem C4_accounting_witness :
    (remaining_tiles sBoard ['A', 'T']).length + (['A', 'T'] : List Char).length +
      sBoard.count_tiles = 100 :=
  C4_accounting sBoard ['A', 'T'] (by decide) (by decide) (by decide)

/-- C4 (counterexample): the claim fails on a board carrying two Q
tiles while the bag holds one: clamping makes the total 101. -/
theorem C4_counterexample :
    (remaining_tiles doubleQBoard []).length + ([] : List Char).length +
      doubleQBoard.count_tiles = 101 := by
  decide

/-!  C8.  Leave evaluation.  The claim's formula is stated below as
`leaveClaimValue`, with its duplicate penalty written as the spec words
it: per non-blank *letter* with count `k ≥ 2` (a sum over the alphabet),
where the code iterates the `Counter` of the tiles actually present. -/

/-- The claim's duplicate penalty for one letter of multiplicity `k`:
`−3·(k−1)` when `k ≥ 2`, a further `−4` when `k ≥ 3`. -/
def dupPenaltySpec (k : Nat) : ℚ :=
  (if 2 ≤ k then -3 * ((k : ℚ) - 1) else 0) + (if 3 ≤ k then -4 else 0)

/-- The value the claim asserts for a non-empty leave: sum of per-tile
desirabilities, the vowel-balance penalty `−15·((v/n) − 0.40)²·n`, the
per-letter duplicate penalties, the synergy bonuses over contained
letter-sets, and `−8` for Q without U, rounded to one decimal place. -/
def leaveClaimValue (leave : List Char) : ℚ :=
  let n : ℚ := leave.length
  let vowels : ℚ := (leave.filter (fun t => "AEIOU".toList.contains t)).length
  roundTenth ((leave.map TILE_DESIRABILITY).sum
    + (-15 * (vowels / n - 2/5) ^ 2 * n)
    + (ASCII_UPPERCASE.map (fun c => dupPenaltySpec (leave.count c))).sum
    + synergy_bonus leave
    + (if leave.contains 'Q' && !(leave.contains 'U') then -8 else 0))

/-- A sum over a duplicate-free list equals the sum over a duplicate-free
superlist on which the function vanishes outside the sublist. -/
theorem sum_map_extend_zero (f : Char → ℚ) (l L : List Char)
    (hl : l.Nodup) (hL : L.Nodup) (hsub : ∀ x ∈ l, x ∈ L)
    (hz : ∀ x ∈ L, x ∉ l → f x = 0) :
    (l.map f).sum = (L.map f).sum := by
  rw [← List.sum_toFinset f hl, ← List.sum_toFinset f hL]
  apply Finset.sum_subset
  · intro x hx
    exact List.mem_toFinset.mpr (hsub x (List.mem_toFinset.mp hx))
  · intro x hx hnx
    exact hz x (List.mem_toFinset.mp hx) (fun hmem => hnx (List.mem_toFinset.mpr hmem))

/-- The tile alphabet: the 26 letters and the blank. -/
def allTiles : List Char :=
  ASCII_UPPERCASE ++ ['?']

/-- The code's `Counter`-based duplicate penalty equals the claim's
alphabet sum, for leaves over the tile alphabet. -/
theorem duplicate_penalty_eq_spec (leave : List Char)
    (hv : ∀ t ∈ leave, t ∈ allTiles) :
    duplicate_penalty leave =
      (ASCII_UPPERCASE.map (fun c => dupPenaltySpec (leave.count c))).sum := by
  have hf : duplicate_penalty leave =
      (leave.dedup.map (fun t =>
        if t = '?' then 0 else dupPenaltySpec (leave.count t))).sum := rfl
  rw [hf]
  have hext : (leave.dedup.map (fun t =>
      if t = '?' then 0 else dupPenaltySpec (leave.count t))).sum =
      (allTiles.map (fun t =>
        if t = '?' then 0 else dupPenaltySpec (leave.count t))).sum := by
    apply sum_map_extend_zero _ _ _ leave.nodup_dedup (by decide)
    · intro x hx
      exact hv x (List.mem_dedup.mp hx)
    · intro x _ hnx
      by_cases hx : x = '?'
      · simp [hx]
      · have hcount : leave.count x = 0 := by
          rw [List.count_eq_zero]
          intro hmem
          exact hnx (List.mem_dedup.mpr hmem)
        simp [hx, hcount, dupPenaltySpec]
  rw [hext]
  have happ : (allTiles.map (fun t =>
      if t = '?' then 0 else dupPenaltySpec (leave.count t))).sum =
      (ASCII_UPPERCASE.map (fun t =>
        if t = '?' then 0 else dupPenaltySpec (leave.count t))).sum := by
    unfold allTiles
    rw [List.map_append, List.sum_append]
    simp
  rw [happ]
  have hfinal : ∀ t ∈ ASCII_UPPERCASE,
      (if t = '?' then (0 : ℚ) else dupPenaltySpec (leave.count t)) =
        dupPenaltySpec (leave.count t) := by
    intro t ht
    have hne : ¬(t = '?') := by
      intro hh
      subst hh
      revert ht
      decide
    simp [hne]
  rw [List.map_congr_left hfinal]

/-- C8: `evaluate_leave` returns 0 on the empty leave, and on every
non-empty leave of at most 7 tiles drawn from {A..Z, ?} it returns the
claim's formula `leaveClaimValue`: desirability sum, vowel-balance
penalty, per-letter duplicate penalties, synergy bonuses by letter-set
inclusion, and the Q-without-U penalty, rounded to one decimal. -/
theorem C8_evaluate_leave :
    evaluate_leave [] = 0 ∧
    ∀ leave : List Char, leave ≠ [] → leave.length ≤ 7 →
      (∀ t ∈ leave, t ∈ allTiles) →
      evaluate_leave leave = leaveClaimValue leave := by
  constructor
  · rfl
  · intro leave hne _ hv
    unfold evaluate_leave leaveClaimValue
    rw [if_neg hne]
    congr 1
    have hbal : balance_penalty leave =
        -15 * (((leave.filter (fun t => "AEIOU".toList.contains t)).length : ℚ) /
          (leave.length : ℚ) - 2/5) ^ 2 * (leave.length : ℚ) := by
      unfold balance_penalty
      rw [if_neg hne]
      ring
    have hq : q_without_u leave =
        (if leave.contains 'Q' && !(leave.contains 'U') then (-8 : ℚ) else 0) := by
      unfold q_without_u
      split_ifs
      · norm_num
      · rfl
    rw [hbal, hq, duplicate_penalty_eq_spec leave hv]

/-- C8 (witness): the theorem applied at the concrete non-empty leave
S, A, T (three tiles, all in the alphabet): the code evaluator agrees
with the claim's formula there. -/
theorem C8_evaluate_leave_witness :
    (['S', 'A', 'T'] : List Char) ≠ [] ∧
    (['S', 'A', 'T'] : List Char).length ≤ 7 ∧
    evaluate_leave ['S', 'A', 'T'] = leaveClaimValue ['S', 'A', 'T'] :=
  ⟨by decide, by decide,
   C8_evaluate_leave.2 ['S', 'A', 'T'] (by decide) (by decide) (by decide)⟩

/-!  C9.  Frame property of `simulate_move` over the heap model: every
write performed by its mutating set-up phase targets a reference
allocated by `Board.copy` or `list(my_rack)`, so the caller's board
rows and rack list are untouched. -/

/-- Writing another reference leaves a reference's contents unchanged. -/
theorem PyHeap.write_data_ne (h : PyHeap) (r : Nat) (v : List (Option Char))
    (ref : Nat) (hne : ref ≠ r) : (h.write r v).data ref = h.data ref := by
  simp [PyHeap.write, hne]

/-- `copyRows` only allocates: old references keep their contents, the
fresh row references are all at or above the old allocation mark, and
the row count is preserved. -/
theorem copyRows_spec (rows : List Nat) : ∀ (h : PyHeap),
    h.next ≤ (copyRows h rows).1.next ∧
    (copyRows h rows).2.length = rows.length ∧
    (∀ ref, ref < h.next → (copyRows h rows).1.data ref = h.data ref) ∧
    (∀ x ∈ (copyRows h rows).2, h.next ≤ x) := by
  induction rows with
  | nil =>
    intro h
    exact ⟨Nat.le_refl _, rfl, fun _ _ => rfl, by simp [copyRows]⟩
  | cons r rest ih =>
    intro h
    obtain ⟨hn, hl, hd, hx⟩ := ih (h.alloc (h.data r)).1
    refine ⟨?_, ?_, ?_, ?_⟩
    · exact Nat.le_trans (Nat.le_succ _) hn
    · simp only [copyRows, List.length_cons, hl]
    · intro ref href
      show (copyRows (h.alloc (h.data r)).1 rest).1.data ref = h.data ref
      rw [hd ref (Nat.lt_trans href (Nat.lt_succ_self _))]
      show (if ref = h.next then h.data r else h.data ref) = h.data ref
      rw [if_neg (Nat.ne_of_lt href)]
    · intro x hx2
      rcases List.mem_cons.mp hx2 with h1 | h1
      · subst h1
        exact Nat.le_refl _
      · exact Nat.le_trans (Nat.le_succ _) (hx x h1)

/-- `hset` writes only into the addressed row list. -/
theorem hset_preserves (hh : PyHeap) (rows : List Nat) (r c : Int)
    (v : Option Char) (n0 : Nat) (hlen : rows.length = 15)
    (hmem : ∀ x ∈ rows, n0 ≤ x) :
    (∀ ref, ref < n0 → (hset hh rows r c v).data ref = hh.data ref) ∧
    (hset hh rows r c v).next = hh.next := by
  unfold hset
  split_ifs with hin
  · constructor
    · intro ref href
      apply PyHeap.write_data_ne
      have hidx : r.toNat < rows.length := by
        rw [hlen]
        simp only [BOARD_SIZE] at hin
        omega
      have hget : rows.getD r.toNat 0 ∈ rows := by
        rw [List.getD_eq_getElem rows 0 hidx]
        exact List.getElem_mem hidx
      have := hmem _ hget
      omega
    · rfl
  · exact ⟨fun _ _ => rfl, rfl⟩

/-- A fold of heap steps that each preserve low references and never
lower the allocation mark preserves low references. -/
theorem foldl_heap_preserve {α : Type} (f : PyHeap → α → PyHeap) (n0 : Nat)
    (hstep : ∀ (hh : PyHeap) (a : α),
      (∀ ref, ref < n0 → (f hh a).data ref = hh.data ref) ∧
      hh.next ≤ (f hh a).next) :
    ∀ (l : List α) (hh : PyHeap),
      (∀ ref, ref < n0 → (l.foldl f hh).data ref = hh.data ref) ∧
      hh.next ≤ (l.foldl f hh).next := by
  intro l
  induction l with
  | nil => exact fun hh => ⟨fun _ _ => rfl, Nat.le_refl _⟩
  | cons a rest ih =>
    intro hh
    obtain ⟨hd1, hn1⟩ := hstep hh a
    obtain ⟨hd2, hn2⟩ := ih (f hh a)
    refine ⟨?_, Nat.le_trans hn1 hn2⟩
    intro ref href
    rw [List.foldl_cons, hd2 ref href, hd1 ref href]

/-- C9: for every well-formed heap state (the board's fifteen row
references and the rack reference already allocated), the mutating
set-up phase of `simulate_move` changes no cell of the input board and
not the input rack list: the candidate move is applied only to the
`Board.copy` rows and the tiles are removed only from the rack copy.
The remainder of `simulate_move` (`simulation.py` lines 90-113)
performs reads only. -/
theorem C9_simulate_move_frame (h : PyHeap) (boardRows : List Nat)
    (rackRef : Nat) (tiles : List (Char × Int × Int))
    (blanks : List (Int × Int)) (hlen : boardRows.length = 15)
    (hrows : ∀ r ∈ boardRows, r < h.next) (hrack : rackRef < h.next) :
    (∀ r c, readCell (simulateMoveHeap h boardRows rackRef tiles blanks).1
        boardRows r c = readCell h boardRows r c) ∧
    (simulateMoveHeap h boardRows rackRef tiles blanks).1.data rackRef
      = h.data rackRef := by
  obtain ⟨hcn, hcl, hcd, hcx⟩ := copyRows_spec boardRows h
  set hc := copyRows h boardRows with hhc
  -- the move-application fold writes only into the fresh rows
  have hstep1 : ∀ (hh : PyHeap) (t : Char × Int × Int),
      (∀ ref, ref < h.next →
        ((fun hh t =>
          if blanks.contains (t.2.1, t.2.2) then
            hset hh hc.2 t.2.1 t.2.2 (some t.1.toLower)
          else hset hh hc.2 t.2.1 t.2.2 (some t.1)) hh t).data ref = hh.data ref) ∧
      hh.next ≤ ((fun hh t =>
          if blanks.contains (t.2.1, t.2.2) then
            hset hh hc.2 t.2.1 t.2.2 (some t.1.toLower)
          else hset hh hc.2 t.2.1 t.2.2 (some t.1)) hh t).next := by
    intro hh t
    have hl2 : hc.2.length = 15 := by rw [hcl, hlen]
    by_cases hb : blanks.contains (t.2.1, t.2.2)
    · obtain ⟨hd, hn⟩ := hset_preserves hh hc.2 t.2.1 t.2.2 (some t.1.toLower)
        h.next hl2 hcx
      simp only [hb, if_true]
      exact ⟨hd, Nat.le_of_eq hn.symm⟩
    · obtain ⟨hd, hn⟩ := hset_preserves hh hc.2 t.2.1 t.2.2 (some t.1)
        h.next hl2 hcx
      simp only [hb, if_false]
      exact ⟨hd, Nat.le_of_eq hn.symm⟩
  obtain ⟨hf1d, hf1n⟩ := foldl_heap_preserve _ h.next hstep1 tiles hc.1
  set h2 := tiles.foldl (fun hh t =>
    if blanks.contains (t.2.1, t.2.2) then
      hset hh hc.2 t.2.1 t.2.2 (some t.1.toLower)
    else hset hh hc.2 t.2.1 t.2.2 (some t.1)) hc.1 with hh2
  have hn2 : h.next ≤ h2.next := Nat.le_trans hcn hf1n
  -- the rack-copy allocation
  have hallocd : ∀ ref, ref < h.next →
      (h2.alloc (h2.data rackRef)).1.data ref = h2.data ref := by
    intro ref href
    show (if ref = h2.next then _ else h2.data ref) = h2.data ref
    rw [if_neg (by omega)]
  -- the rack-removal fold writes only into the fresh rack copy
  have hstep2 : ∀ (hh : PyHeap) (t : Char × Int × Int),
      (∀ ref, ref < h.next →
        ((fun hh (t : Char × Int × Int) =>
          rackRemoveStep hh (h2.alloc (h2.data rackRef)).2
            (if blanks.contains (t.2.1, t.2.2) then '?' else t.1.toUpper)) hh t).data ref
          = hh.data ref) ∧
      hh.next ≤ ((fun hh (t : Char × Int × Int) =>
          rackRemoveStep hh (h2.alloc (h2.data rackRef)).2
            (if blanks.contains (t.2.1, t.2.2) then '?' else t.1.toUpper)) hh t).next := by
    intro hh t
    have htarget : (h2.alloc (h2.data rackRef)).2 = h2.next := rfl
    constructor
    · intro ref href
      simp only [rackRemoveStep]
      split_ifs <;>
        first
        | rfl
        | (apply PyHeap.write_data_ne; rw [htarget]; omega)
    · simp only [rackRemoveStep]
      split_ifs <;> exact Nat.le_refl _
  obtain ⟨hf2d, _⟩ := foldl_heap_preserve _ h.next hstep2 tiles
    (h2.alloc (h2.data rackRef)).1
  -- all writes preserved the low references
  have hfinal : ∀ ref, ref < h.next →
      (simulateMoveHeap h boardRows rackRef tiles blanks).1.data ref
        = h.data ref := by
    intro ref href
    show (tiles.foldl _ (h2.alloc (h2.data rackRef)).1).data ref = h.data ref
    rw [hf2d ref href, hallocd ref href, hf1d ref href, hcd ref href]
  constructor
  · intro r c
    unfold readCell
    split_ifs with hin
    · have hposnext : 0 < h.next := Nat.lt_of_le_of_lt (Nat.zero_le _) hrack
      have href : boardRows.getD r.toNat 0 < h.next := by
        by_cases hidx : r.toNat < boardRows.length
        · rw [List.getD_eq_getElem boardRows 0 hidx]
          exact hrows _ (List.getElem_mem hidx)
        · rw [List.getD_eq_default boardRows 0 (Nat.le_of_not_lt hidx)]
          exact hposnext
      rw [hfinal _ href]
    · rfl
  · exact hfinal rackRef hrack

/-- A concrete well-formed heap: fifteen empty rows at references
0..14, the rack at reference 15, allocation mark 16. -/
def frameHeap : PyHeap :=
  ⟨fun i => if i = 15 then [some 'A', some 'T'] else List.replicate 15 none, 16⟩

/-- The board rows of the concrete heap. -/
def frameRows : List Nat :=
  List.range 15

/-- C9 (witness): the frame theorem at the concrete heap: after the
set-up phase plays A at (7,6), the input board still reads empty at
(7,6) and the input rack object still holds A, T. -/
theorem C9_simulate_move_frame_witness :
    readCell (simulateMoveHeap frameHeap frameRows 15 [('A', 7, 6)] []).1
      frameRows 7 6 = readCell frameHeap frameRows 7 6 ∧
    (simulateMoveHeap frameHeap frameRows 15 [('A', 7, 6)] []).1.data 15
      = frameHeap.data 15 :=
  ⟨(C9_simulate_move_frame frameHeap frameRows 15 [('A', 7, 6)] []
      (by decide) (by decide) (by decide)).1 7 6,
   (C9_simulate_move_frame frameHeap frameRows 15 [('A', 7, 6)] []
      (by decide) (by decide) (by decide)).2⟩

/-!  C5.  Properties of the `find_best_moves` pipeline: deduplication
keeps the first-generated move per key, the result is stably sorted by
score descending, and it is truncated to `top_n`. -/

/-- Inserting into a sorted list splits it around the insertion point,
and every element passed over refuses to let the new one precede it. -/
theorem pySortInsert_split (le : Move → Move → Bool) (m : Move) :
    ∀ (l : List Move), ∃ l1 l2,
      pySortInsert le m l = l1 ++ m :: l2 ∧ l = l1 ++ l2 ∧
      ∀ x ∈ l1, le m x = false := by
  intro l
  induction l with
  | nil => exact ⟨[], [], rfl, rfl, by simp⟩
  | cons x xs ih =>
    by_cases hx : le m x = true
    · exact ⟨[], x :: xs, by simp [pySortInsert, hx], rfl, by simp⟩
    · obtain ⟨l1, l2, he, hl, hf⟩ := ih
      refine ⟨x :: l1, l2, ?_, by simp [hl], ?_⟩
      · have hx2 : le m x = false := Bool.eq_false_iff.mpr hx
        simp only [pySortInsert, hx2, if_false, he, List.cons_append]
        rfl
      · intro y hy
        rcases List.mem_cons.mp hy with h | h
        · subst h
          exact Bool.eq_false_iff.mpr hx
        · exact hf y h

/-- `pySortInsert` permutes the inserted cons. -/
theorem pySortInsert_perm (le : Move → Move → Bool) (m : Move) (l : List Move) :
    List.Perm (pySortInsert le m l) (m :: l) := by
  obtain ⟨l1, l2, he, hl, _⟩ := pySortInsert_split le m l
  rw [he, hl]
  exact List.perm_middle

/-- `pySort` permutes its input. -/
theorem pySort_perm (le : Move → Move → Bool) :
    ∀ (l : List Move), List.Perm (pySort le l) l := by
  intro l
  induction l with
  | nil => exact List.Perm.refl _
  | cons m ms ih =>
    exact ((pySortInsert_perm le m (pySort le ms)).trans (ih.cons m))

/-- Membership in an insertion. -/
theorem mem_pySortInsert {le : Move → Move → Bool} {m y : Move} {l : List Move} :
    y ∈ pySortInsert le m l ↔ y = m ∨ y ∈ l := by
  rw [(pySortInsert_perm le m l).mem_iff]
  exact List.mem_cons

/-- Inserting into a `scoreGE`-sorted list keeps it sorted. -/
theorem pySortInsert_pairwise (m : Move) (l : List Move)
    (hl : l.Pairwise (fun a b => scoreGE a b = true)) :
    (pySortInsert scoreGE m l).Pairwise (fun a b => scoreGE a b = true) := by
  induction l with
  | nil => simp [pySortInsert]
  | cons x xs ih =>
    rcases List.pairwise_cons.mp hl with ⟨hx, hxs⟩
    by_cases hmx : scoreGE m x = true
    · rw [pySortInsert, if_pos hmx]
      refine List.pairwise_cons.mpr ⟨?_, hl⟩
      intro y hy
      rcases List.mem_cons.mp hy with h | h
      · subst h
        exact hmx
      · have h1 : x.score ≤ m.score := by
          have := hmx
          simp only [scoreGE, decide_eq_true_eq] at this
          exact this
        have h2 : y.score ≤ x.score := by
          have := hx y h
          simp only [scoreGE, decide_eq_true_eq] at this
          exact this
        simp only [scoreGE, decide_eq_true_eq]
        exact le_trans h2 h1
    · rw [pySortInsert, if_neg hmx]
      refine List.pairwise_cons.mpr ⟨?_, ih hxs⟩
      intro y hy
      rcases mem_pySortInsert.mp hy with h | h
      · rw [h]
        have h1 : ¬(x.score ≤ m.score) := by
          intro hc
          exact hmx (by simp only [scoreGE, decide_eq_true_eq]; exact hc)
        simp only [scoreGE, decide_eq_true_eq]
        omega
      · exact hx y h

/-- `pySort` sorts by score descending. -/
theorem pySort_pairwise (l : List Move) :
    (pySort scoreGE l).Pairwise (fun a b => scoreGE a b = true) := by
  induction l with
  | nil => simp [pySort]
  | cons m ms ih => exact pySortInsert_pairwise m (pySort scoreGE ms) ih

/-- Stability of the insertion under a fixed-score filter. -/
theorem filter_pySortInsert (s : Int) (m : Move) (l : List Move) :
    (pySortInsert scoreGE m l).filter (fun x => x.score == s) =
      (m :: l).filter (fun x => x.score == s) := by
  obtain ⟨l1, l2, he, hl, hf⟩ := pySortInsert_split scoreGE m l
  rw [he, hl]
  by_cases hm : (m.score == s) = true
  · have hms : m.score = s := by simpa using hm
    have hl1 : l1.filter (fun x => x.score == s) = [] := by
      rw [List.filter_eq_nil_iff]
      intro x hx
      have hfx := hf x hx
      simp only [scoreGE, decide_eq_false_iff_not] at hfx
      simp only [beq_iff_eq]
      omega
    simp [List.filter_append, List.filter_cons, hm, hl1]
  · have hmf : (m.score == s) = false := Bool.eq_false_iff.mpr hm
    have hml2 : List.filter (fun x => x.score == s) (m :: l2)
        = List.filter (fun x => x.score == s) l2 := by
      simp [List.filter_cons, hmf]
    have hmll : List.filter (fun x => x.score == s) (m :: (l1 ++ l2))
        = List.filter (fun x => x.score == s) (l1 ++ l2) := by
      simp [List.filter_cons, hmf]
    rw [List.filter_append, hml2, hmll, List.filter_append]

/-- Stability of `pySort`: the moves of any one score keep their input
order. -/
theorem filter_pySort (s : Int) (l : List Move) :
    (pySort scoreGE l).filter (fun x => x.score == s) =
      l.filter (fun x => x.score == s) := by
  induction l with
  | nil => rfl
  | cons m ms ih =>
    rw [pySort, filter_pySortInsert s m (pySort scoreGE ms)]
    simp only [List.filter_cons, ih]

/-- The deduplication loop yields a sublist of its input. -/
theorem dedupGo_sublist : ∀ (seen : List (List Char × Int × Int × String))
    (ms : List Move), List.Sublist (dedupGo seen ms) ms := by
  intro seen ms
  induction ms generalizing seen with
  | nil => exact List.Sublist.refl _
  | cons m rest ih =>
    rw [dedupGo]
    split_ifs
    · exact (ih seen).cons m
    · exact (ih (moveKey m :: seen)).cons₂ m

/-- Every move kept by the deduplication loop is the first input move
bearing its key, and its key is not among the already-seen keys. -/
theorem dedupGo_first : ∀ (seen : List (List Char × Int × Int × String))
    (ms : List Move) (m : Move), m ∈ dedupGo seen ms →
      moveKey m ∉ seen ∧
      ms.find? (fun x => decide (moveKey x = moveKey m)) = some m := by
  intro seen ms
  induction ms generalizing seen with
  | nil => intro m hm; cases hm
  | cons x rest ih =>
    intro m hm
    rw [dedupGo] at hm
    split_ifs at hm with hseen
    · obtain ⟨hnot, hfind⟩ := ih seen m hm
      have hne : ¬(moveKey x = moveKey m) := by
        intro he
        exact hnot (he ▸ (List.elem_iff.mp hseen))
      refine ⟨hnot, ?_⟩
      rw [List.find?_cons_of_neg _ (by simpa using hne)]
      exact hfind
    · rcases List.mem_cons.mp hm with h | h
      · subst h
        refine ⟨fun hc => hseen (List.elem_iff.mpr hc), ?_⟩
        rw [List.find?_cons_of_pos _ (by simp)]
      · obtain ⟨hnot, hfind⟩ := ih (moveKey x :: seen) m h
        have hne : ¬(moveKey x = moveKey m) := by
          intro he
          exact hnot (he ▸ List.mem_cons_self _ _)
        refine ⟨fun hc => hnot (List.mem_cons_of_mem _ hc), ?_⟩
        rw [List.find?_cons_of_neg _ (by simpa using hne)]
        exact hfind

/-- The deduplicated list carries pairwise distinct keys. -/
theorem dedupGo_pairwise : ∀ (seen : List (List Char × Int × Int × String))
    (ms : List Move),
      (dedupGo seen ms).Pairwise (fun a b => moveKey a ≠ moveKey b) := by
  intro seen ms
  induction ms generalizing seen with
  | nil => exact List.Pairwise.nil
  | cons m rest ih =>
    rw [dedupGo]
    split_ifs
    · exact ih seen
    · refine List.pairwise_cons.mpr ⟨?_, ih (moveKey m :: seen)⟩
      intro y hy he
      exact (dedupGo_first _ _ y hy).1 (he ▸ List.mem_cons_self _ _)

/-- C5: for every board, rack and `top_n`, the list returned by
`find_best_moves` has pairwise distinct `(word, row, col, direction)`
keys, each returned move is the first generated move bearing its key,
the list is sorted by score descending, the moves of any one score
appear in generation order (a sublist of the generated list), and the
length is at most `top_n`. -/
theorem C5_find_best_moves (b : Board) (words : List (List Char))
    (trie : TrieNode) (rack : List Char) (topN : Nat) :
    (find_best_moves b words trie rack topN).Pairwise
      (fun x y => moveKey x ≠ moveKey y) ∧
    (∀ m ∈ find_best_moves b words trie rack topN,
      (generate_all_moves b words trie rack).find?
        (fun x => decide (moveKey x = moveKey m)) = some m) ∧
    (find_best_moves b words trie rack topN).Pairwise
      (fun x y => y.score ≤ x.score) ∧
    (∀ s : Int, List.Sublist
      ((find_best_moves b words trie rack topN).filter (fun m => m.score == s))
      (generate_all_moves b words trie rack)) ∧
    (find_best_moves b words trie rack topN).length ≤ topN := by
  have hperm : List.Perm
      (pySort scoreGE (dedupGo [] (generate_all_moves b words trie rack)))
      (dedupGo [] (generate_all_moves b words trie rack)) := pySort_perm _ _
  have htake : List.Sublist (find_best_moves b words trie rack topN)
      (pySort scoreGE (dedupGo [] (generate_all_moves b words trie rack))) :=
    List.take_sublist _ _
  refine ⟨?_, ?_, ?_, ?_, ?_⟩
  · apply List.Pairwise.sublist htake
    exact (hperm.pairwise_iff (fun {a b} h => Ne.symm h)).mpr (dedupGo_pairwise _ _)
  · intro m hm
    have hm2 : m ∈ dedupGo [] (generate_all_moves b words trie rack) :=
      hperm.mem_iff.mp (htake.subset hm)
    exact (dedupGo_first [] _ m hm2).2
  · apply List.Pairwise.sublist htake
    apply List.Pairwise.imp ?_ (pySort_pairwise _)
    intro a c h
    simpa [scoreGE] using h
  · intro s
    have h1 : List.Sublist
        ((find_best_moves b words trie rack topN).filter (fun m => m.score == s))
        ((pySort scoreGE (dedupGo [] (generate_all_moves b words trie rack))).filter
          (fun m => m.score == s)) := List.Sublist.filter _ htake
    rw [filter_pySort] at h1
    exact h1.trans ((List.filter_sublist _).trans (dedupGo_sublist _ _))
  · exact List.length_take_le _ _

/-!  Soundness lemmas for the generator, shared by C6 and C7: every
move in the generated list is the value of `_validate_and_score` on
some completed placement, and every empty span position receives a
placed tile recorded in `tiles_used`. -/

/-- Membership in a guarded list whose positive branch is empty. -/
theorem mem_of_ite_nil_pos {c : Prop} [Decidable c] {l : List Move} {m : Move}
    (h : m ∈ (if c then ([] : List Move) else l)) : m ∈ l := by
  by_cases hc : c
  · rw [if_pos hc] at h
    cases h
  · rwa [if_neg hc] at h

/-- Membership in a guarded list whose negative branch is empty. -/
theorem mem_of_ite_nil_neg {c : Prop} [Decidable c] {l : List Move} {m : Move}
    (h : m ∈ (if c then l else ([] : List Move))) : c ∧ m ∈ l := by
  by_cases hc : c
  · rw [if_pos hc] at h
    exact ⟨hc, h⟩
  · rw [if_neg hc] at h
    cases h

/-- `_validate_and_score` records exactly the placed tiles in
`tiles_used`. -/
theorem validateAndScore_tiles {b : Board} {words : List (List Char)}
    {w : List Char} {sR sC : Int} {dir : String} {placed : List Placed}
    {m : Move} (h : validateAndScore b words w sR sC dir placed = some m) :
    m.tiles_used = placed.map (fun p => (p.letter, p.r, p.c)) := by
  simp only [validateAndScore] at h
  split at h
  · cases h
  · cases h
    rfl

/-- Every move produced by `_fill` is a value of `_validate_and_score`. -/
theorem fill_sound {b : Board} {words : List (List Char)} {sR sC : Int}
    {dir : String} {fixedAll : List (Option Char)} :
    ∀ {rest : List ((Int × Int) × Option Char)} {node : TrieNode}
      {placed : List Placed} {rack : List Char} {m : Move},
      m ∈ fill b words sR sC dir fixedAll rest node placed rack →
      ∃ (w : List Char) (p : List Placed),
        validateAndScore b words w sR sC dir p = some m := by
  intro rest
  induction rest with
  | nil =>
    intro node placed rack m hm
    rw [fill] at hm
    split_ifs at hm
    · rcases hv : validateAndScore b words (rebuildWord fixedAll placed) sR sC
          dir placed with hnone | m2
      · rw [hv] at hm
        cases hm
      · rw [hv] at hm
        rcases List.mem_singleton.mp hm with rfl
        exact ⟨_, _, hv⟩
    · cases hm
  | cons hd rest ih =>
    intro node placed rack m hm
    rcases hd with ⟨⟨r, c⟩, fx⟩
    cases fx with
    | some ch =>
      rw [fill] at hm
      rcases hf : node.find ch with hnone | child
      · rw [hf] at hm
        cases hm
      · rw [hf] at hm
        exact ih hm
    | none =>
      rw [fill] at hm
      rcases List.mem_flatMap.mp hm with ⟨choice, _, hmem⟩
      exact ih hmem

/-- One scoring step either keeps the accumulated cross-words or
appends a single validated one. -/
theorem scoreStep_crossWords {b : Board} {words : List (List Char)}
    {sR sC dr dc cdr cdc : Int} {pc bp : List (Int × Int)} {i : Int}
    {letter : Char} {st st2 : ScoreState}
    (h : scoreStep b words sR sC dr dc cdr cdc pc bp i letter st = some st2) :
    st2.crossWords = st.crossWords ∨
      ∃ cw, st2.crossWords = st.crossWords ++ [cw] ∧
        2 ≤ cw.length ∧ dictContains words (cw.map Char.toUpper) = true := by
  simp only [scoreStep] at h
  split at h
  · split at h
    · rename_i cw cs heq
      split at h
      · rename_i hlen
        split at h
        · rename_i hdict
          cases h
          exact Or.inr ⟨cw, rfl, by omega, hdict⟩
        · exact Option.noConfusion h
      · cases h
        exact Or.inl rfl
    · cases h
      exact Or.inl rfl
  · cases h
    exact Or.inl rfl

/-- Every cross-word accumulated by the scoring loop beyond the initial
state has length at least 2 and passes the dictionary check. -/
theorem scoreLoop_cross {b : Board} {words : List (List Char)}
    {sR sC dr dc cdr cdc : Int} {placedCells blankPositions : List (Int × Int)} :
    ∀ {l : List (Int × Char)} {st st2 : ScoreState},
      scoreLoop b words sR sC dr dc cdr cdc placedCells blankPositions l st
        = some st2 →
      ∀ cw ∈ st2.crossWords, cw ∈ st.crossWords ∨
        (2 ≤ cw.length ∧ dictContains words (cw.map Char.toUpper) = true) := by
  intro l
  induction l with
  | nil =>
    intro st st2 h cw hcw
    rw [scoreLoop] at h
    cases h
    exact Or.inl hcw
  | cons hd rest ih =>
    intro st st2 h cw hcw
    rcases hd with ⟨i, letter⟩
    rw [scoreLoop] at h
    split at h
    · exact Option.noConfusion h
    · rename_i st1 hstep
      rcases ih h cw hcw with hin | hgood
      · rcases scoreStep_crossWords hstep with he | ⟨cw2, he, hl2, hd2⟩
        · rw [he] at hin
          exact Or.inl hin
        · rw [he] at hin
          rcases List.mem_append.mp hin with hin2 | hin2
          · exact Or.inl hin2
          · rcases List.mem_singleton.mp hin2 with rfl
            exact Or.inr ⟨hl2, hd2⟩
      · exact Or.inr hgood

/-- Every cross-word of a scored move has length at least 2 and passes
the dictionary check. -/
theorem validateAndScore_cross {b : Board} {words : List (List Char)}
    {w : List Char} {sR sC : Int} {dir : String} {placed : List Placed}
    {m : Move} (h : validateAndScore b words w sR sC dir placed = some m) :
    ∀ cw ∈ m.cross_words,
      2 ≤ cw.length ∧ dictContains words (cw.map Char.toUpper) = true := by
  simp only [validateAndScore] at h
  split at h
  · cases h
  · rename_i st hst
    cases h
    intro cw hcw
    rcases scoreLoop_cross hst cw hcw with hin | hgood
    · cases hin
    · exact hgood

/-- Tiles already accumulated by `_fill` end up in `tiles_used` of every
emitted move. -/
theorem fill_placed_mem {b : Board} {words : List (List Char)} {sR sC : Int}
    {dir : String} {fixedAll : List (Option Char)} :
    ∀ {rest : List ((Int × Int) × Option Char)} {node : TrieNode}
      {placed : List Placed} {rack : List Char} {m : Move},
      m ∈ fill b words sR sC dir fixedAll rest node placed rack →
      ∀ p ∈ placed, (p.letter, p.r, p.c) ∈ m.tiles_used := by
  intro rest
  induction rest with
  | nil =>
    intro node placed rack m hm p hp
    rw [fill] at hm
    split_ifs at hm
    · rcases hv : validateAndScore b words (rebuildWord fixedAll placed) sR sC
          dir placed with hnone | m2
      · rw [hv] at hm
        cases hm
      · rw [hv] at hm
        rcases List.mem_singleton.mp hm with rfl
        rw [validateAndScore_tiles hv]
        exact List.mem_map.mpr ⟨p, hp, rfl⟩
    · cases hm
  | cons hd rest ih =>
    intro node placed rack m hm p hp
    rcases hd with ⟨⟨r, c⟩, fx⟩
    cases fx with
    | some ch =>
      rw [fill] at hm
      rcases hf : node.find ch with hnone | child
      · rw [hf] at hm
        cases hm
      · rw [hf] at hm
        exact ih hm p hp
    | none =>
      rw [fill] at hm
      rcases List.mem_flatMap.mp hm with ⟨choice, _, hmem⟩
      exact ih hmem p (List.mem_append_left _ hp)

/-- Every empty span position still to fill receives a placed tile,
recorded in `tiles_used`, in every move `_fill` emits. -/
theorem fill_covers {b : Board} {words : List (List Char)} {sR sC : Int}
    {dir : String} {fixedAll : List (Option Char)} :
    ∀ {rest : List ((Int × Int) × Option Char)} {node : TrieNode}
      {placed : List Placed} {rack : List Char} {m : Move},
      m ∈ fill b words sR sC dir fixedAll rest node placed rack →
      ∀ q : Int × Int, (q, (none : Option Char)) ∈ rest →
        ∃ l, (l, q.1, q.2) ∈ m.tiles_used := by
  intro rest
  induction rest with
  | nil =>
    intro node placed rack m _ q hq
    cases hq
  | cons hd rest ih =>
    intro node placed rack m hm q hq
    rcases hd with ⟨⟨r, c⟩, fx⟩
    rcases List.mem_cons.mp hq with hhead | htail
    · cases fx with
      | some ch =>
        exact absurd (congrArg Prod.snd hhead) (by simp)
      | none =>
        have hqq : q = (r, c) := congrArg Prod.fst hhead
        subst hqq
        rw [fill] at hm
        rcases List.mem_flatMap.mp hm with ⟨choice, _, hmem⟩
        refine ⟨choice.1, ?_⟩
        have := fill_placed_mem hmem ⟨choice.1, r, c, choice.2.1⟩
          (List.mem_append_right _ (List.mem_singleton.mpr rfl))
        exact this
    · cases fx with
      | some ch =>
        rw [fill] at hm
        rcases hf : node.find ch with hnone | child
        · rw [hf] at hm
          cases hm
        · rw [hf] at hm
          exact ih hm q htail
      | none =>
        rw [fill] at hm
        rcases List.mem_flatMap.mp hm with ⟨choice, _, hmem⟩
        exact ih hmem q htail

/-- Cast membership in an integer range. -/
theorem mem_intRange_of_lt {i n : Nat} (h : i < n) : (i : Int) ∈ intRange n := by
  simp [intRange]
  omega

/-- Every move of `_try_placements` places a tile on each empty cell of
its span. -/
theorem try_placements_covers {b : Board} {words : List (List Char)}
    {trie : TrieNode} {rack : List Char} {sR sC : Int} {direction : String}
    {L : Nat} {m : Move}
    (hm : m ∈ Engine.try_placements b words trie rack sR sC direction L)
    (i : Nat) (hi : i < L)
    (hempty : b.get (sR + (i : Int) * (if direction = "V" then 1 else 0))
      (sC + (i : Int) * (if direction = "H" then 1 else 0)) = none) :
    ∃ l, (l, sR + (i : Int) * (if direction = "V" then 1 else 0),
      sC + (i : Int) * (if direction = "H" then 1 else 0)) ∈ m.tiles_used := by
  simp only [Engine.try_placements] at hm
  have hm2 := mem_of_ite_nil_pos (mem_of_ite_nil_pos hm)
  simp only [tryPlacementsCore] at hm2
  rcases mem_of_ite_nil_neg hm2 with ⟨_, hm3⟩
  have hm4 := mem_of_ite_nil_pos hm3
  apply fill_covers hm4 (sR + (i : Int) * (if direction = "V" then 1 else 0),
    sC + (i : Int) * (if direction = "H" then 1 else 0))
  have hzip : ((intRange L).map (fun j => (sR + j * (if direction = "V" then 1 else 0),
      sC + j * (if direction = "H" then 1 else 0)))).zip
      (((intRange L).map (fun j => (sR + j * (if direction = "V" then 1 else 0),
        sC + j * (if direction = "H" then 1 else 0)))).map
        (fun p => (b.get p.1 p.2).map Char.toUpper)) =
      (intRange L).map (fun j =>
        ((sR + j * (if direction = "V" then 1 else 0),
          sC + j * (if direction = "H" then 1 else 0)),
         (b.get (sR + j * (if direction = "V" then 1 else 0))
           (sC + j * (if direction = "H" then 1 else 0))).map Char.toUpper)) := by
    rw [List.map_map, List.zip_map']
    rfl
  rw [hzip]
  refine List.mem_map.mpr ⟨(i : Int), mem_intRange_of_lt hi, ?_⟩
  rw [hempty]
  rfl

/-- Every move emitted by the length loop at an anchor places a tile on
the anchor cell. -/
theorem lengthsGo_anchor {b : Board} {words : List (List Char)}
    {trie : TrieNode} {rack : List Char} {aR aC sR sC : Int}
    {direction : String}
    (hH : direction = "H" → sR = aR) (hV : direction = "V" → sC = aC)
    (hdir : direction = "H" ∨ direction = "V")
    (hempty : b.get aR aC = none) :
    ∀ {lengths : List Nat} {m : Move},
      m ∈ lengthsGo b words trie rack aR aC sR sC direction lengths →
      ∃ l, (l, aR, aC) ∈ m.tiles_used := by
  intro lengths
  induction lengths with
  | nil =>
    intro m hm
    cases hm
  | cons L Ls ih =>
    intro m hm
    simp only [lengthsGo] at hm
    have hm2 := mem_of_ite_nil_pos hm
    by_cases hcont : ((if (if direction = "V" then (1 : Int) else 0) ≠ 0 then
        aR - sR else aC - sC) < 0 ∨
        (L : Int) ≤ (if (if direction = "V" then (1 : Int) else 0) ≠ 0 then
          aR - sR else aC - sC))
    · rw [if_pos hcont] at hm2
      exact ih hm2
    · rw [if_neg hcont] at hm2
      rcases List.mem_append.mp hm2 with htp | hrec
      · -- the move came from the span of length L covering the anchor
        rcases hdir with hdH | hdV
        · subst hdH
          have hvz : (if ("H" : String) = "V" then (1 : Int) else 0) = 0 := by decide
          have hhz : (if ("H" : String) = "H" then (1 : Int) else 0) = 1 := by decide
          rw [hvz] at hcont
          rw [if_neg (by decide : ¬((0 : Int) ≠ 0))] at hcont
          push_neg at hcont
          obtain ⟨h0c, hLc⟩ := hcont
          have hsr := hH rfl
          have hidx : (((aC - sC).toNat : Nat) : Int) = aC - sC :=
            Int.toNat_of_nonneg (by omega)
          have hiL : (aC - sC).toNat < L := by omega
          obtain ⟨l, hl⟩ := try_placements_covers htp (aC - sC).toNat hiL (by
            rw [hvz, hhz, hidx]
            have e1 : sR + (aC - sC) * 0 = aR := by omega
            have e2 : sC + (aC - sC) * 1 = aC := by omega
            rw [e1, e2]
            exact hempty)
          refine ⟨l, ?_⟩
          rw [hvz, hhz, hidx] at hl
          have e1 : sR + (aC - sC) * 0 = aR := by omega
          have e2 : sC + (aC - sC) * 1 = aC := by omega
          rw [e1, e2] at hl
          exact hl
        · subst hdV
          have hvz : (if ("V" : String) = "V" then (1 : Int) else 0) = 1 := by decide
          have hhz : (if ("V" : String) = "H" then (1 : Int) else 0) = 0 := by decide
          rw [hvz] at hcont
          rw [if_pos (by decide : ((1 : Int) ≠ 0))] at hcont
          push_neg at hcont
          obtain ⟨h0c, hLc⟩ := hcont
          have hsc := hV rfl
          have hidx : (((aR - sR).toNat : Nat) : Int) = aR - sR :=
            Int.toNat_of_nonneg (by omega)
          have hiL : (aR - sR).toNat < L := by omega
          obtain ⟨l, hl⟩ := try_placements_covers htp (aR - sR).toNat hiL (by
            rw [hvz, hhz, hidx]
            have e1 : sR + (aR - sR) * 1 = aR := by omega
            have e2 : sC + (aR - sR) * 0 = aC := by omega
            rw [e1, e2]
            exact hempty)
          refine ⟨l, ?_⟩
          rw [hvz, hhz, hidx] at hl
          have e1 : sR + (aR - sR) * 1 = aR := by omega
          have e2 : sC + (aR - sR) * 0 = aC := by omega
          rw [e1, e2] at hl
          exact hl
      · exact ih hrec

/-- Every anchor is an empty cell orthogonally adjacent to an occupied
cell. -/
theorem find_anchors_spec {b : Board} {a : Int × Int}
    (ha : a ∈ find_anchors b) :
    b.get a.1 a.2 = none ∧
    ∃ d ∈ ([((-1 : Int), (0 : Int)), (1, 0), (0, -1), (0, 1)] : List (Int × Int)),
      b.is_occupied (a.1 + d.1) (a.2 + d.2) = true := by
  rcases List.mem_flatMap.mp ha with ⟨r, _, hmem⟩
  rcases List.mem_filterMap.mp hmem with ⟨c, _, heq⟩
  split_ifs at heq with hcond
  · cases heq
    rw [Bool.and_eq_true] at hcond
    obtain ⟨hemp, hany⟩ := hcond
    constructor
    · simpa [Board.is_empty, Option.isNone_iff_eq_none] using hemp
    · rcases List.any_eq_true.mp hany with ⟨d, hd, hocc⟩
      exact ⟨d, hd, hocc⟩

/-- Moves returned by `find_best_moves` come from the generated list. -/
theorem find_best_moves_mem_generate {b : Board} {words : List (List Char)}
    {trie : TrieNode} {rack : List Char} {topN : Nat} {m : Move}
    (hm : m ∈ find_best_moves b words trie rack topN) :
    m ∈ generate_all_moves b words trie rack := by
  have h1 : m ∈ pySort scoreGE (dedupGo [] (generate_all_moves b words trie rack)) :=
    (List.take_sublist _ _).subset hm
  have h2 : m ∈ dedupGo [] (generate_all_moves b words trie rack) :=
    (pySort_perm scoreGE _).mem_iff.mp h1
  exact (dedupGo_sublist _ _).subset h2

/-- C6: on a non-empty board, every move returned by `find_best_moves`
has at least one placement whose cell is orthogonally adjacent
(4-neighbourhood) to a cell occupied on the pre-move board. -/
theorem C6_anchor_adjacency (b : Board) (words : List (List Char))
    (trie : TrieNode) (rack : List Char) (topN : Nat) (m : Move)
    (hne : b.is_board_empty = false)
    (hm : m ∈ find_best_moves b words trie rack topN) :
    ∃ (l : Char) (r c : Int), (l, r, c) ∈ m.tiles_used ∧
      ∃ d ∈ ([((-1 : Int), (0 : Int)), (1, 0), (0, -1), (0, 1)] : List (Int × Int)),
        b.is_occupied (r + d.1) (c + d.2) = true := by
  have hmg : m ∈ generate_all_moves b words trie rack :=
    find_best_moves_mem_generate hm
  rw [generate_all_moves] at hmg
  rw [hne] at hmg
  simp only [Bool.false_eq_true, if_false] at hmg
  rcases List.mem_flatMap.mp hmg with ⟨d, hd, hmg2⟩
  rcases List.mem_flatMap.mp hmg2 with ⟨a, ha, hmg3⟩
  obtain ⟨hempty, hadj⟩ := find_anchors_spec ha
  have hdir : d = "H" ∨ d = "V" := by
    rcases List.mem_cons.mp hd with h | h
    · exact Or.inl h
    · rcases List.mem_cons.mp h with h2 | h2
      · exact Or.inr h2
      · cases h2
  simp only [generate_moves_at_anchor] at hmg3
  obtain ⟨l, hl⟩ := lengthsGo_anchor
    (fun hdH => by
      subst hdH
      simp only [if_neg (by decide : ¬("H" : String) = "V")]
      omega)
    (fun hdV => by
      subst hdV
      simp only [if_neg (by decide : ¬("V" : String) = "H")]
      omega)
    hdir hempty hmg3
  exact ⟨l, a.1, a.2, hl, hadj⟩

/-- C6 (witness): on the board holding only S at (7,7), with dictionary
{AS} and rack A, the returned move AS at (7,6) places its A next to the
existing S. -/
theorem C6_anchor_adjacency_witness :
    sBoard.is_board_empty = false ∧
    asMove ∈ find_best_moves sBoard asWords asTrie ['A'] 10 ∧
    ∃ (l : Char) (r c : Int), (l, r, c) ∈ asMove.tiles_used ∧
      ∃ d ∈ ([((-1 : Int), (0 : Int)), (1, 0), (0, -1), (0, 1)] : List (Int × Int)),
        sBoard.is_occupied (r + d.1) (c + d.2) = true :=
  ⟨by decide, by decide,
    C6_anchor_adjacency sBoard asWords asTrie ['A'] 10 asMove
      (by decide) (by decide)⟩

/-!  Cross-word validation (`_validate_and_score` / `_get_cross_word`). -/

/-- `_get_cross_word` never returns a length-1 word: a cross-word exists
only when a perpendicular neighbour exists, so its length is at least
2. -/
theorem getCrossWord_length {b : Board} {r c : Int} {letter : Char}
    {cdr cdc : Int} {bonus : String} {isBlank : Bool} {p : List Char × Int}
    (h : getCrossWord b r c letter cdr cdc bonus isBlank = some p) :
    2 ≤ p.1.length := by
  simp only [getCrossWord] at h
  split at h
  · exact Option.noConfusion h
  · rename_i hne
    injection h with h2
    subst h2
    rcases not_and_or.mp hne with h1 | h1
    · have := List.length_pos.mpr h1
      simp only [List.length_append, List.length_cons]
      omega
    · have := List.length_pos.mpr h1
      simp only [List.length_append, List.length_cons]
      omega

/-- A scoring step rejects (returns `none`) when the placed tile forms a
perpendicular word of length at least 2 that fails the dictionary
check. -/
theorem scoreStep_rejects {b : Board} {words : List (List Char)}
    {sR sC dr dc cdr cdc : Int} {pc bp : List (Int × Int)} {i : Int}
    {letter : Char} {st : ScoreState} {cw : List Char} {cs : Int}
    (hpc : pc.contains (sR + i * dr, sC + i * dc) = true)
    (hcw : getCrossWord b (sR + i * dr) (sC + i * dc) letter cdr cdc
        (bonusAt (sR + i * dr) (sC + i * dc))
        (bp.contains (sR + i * dr, sC + i * dc) ||
          ((b.get (sR + i * dr) (sC + i * dc)).map Char.isLower).getD false)
        = some (cw, cs))
    (hlen : 1 < cw.length)
    (hdict : dictContains words (cw.map Char.toUpper) = false) :
    scoreStep b words sR sC dr dc cdr cdc pc bp i letter st = none := by
  simp only [scoreStep]
  rw [if_pos hpc]
  split
  · rename_i cw2 cs2 heq
    rw [hcw] at heq
    injection heq with heq2
    injection heq2 with heq3 heq4
    subst heq3
    subst heq4
    rw [if_pos hlen]
    have hneg : ¬ (dictContains words (cw.map Char.toUpper) = true) := by
      rw [hdict]
      exact Bool.false_ne_true
    rw [if_neg hneg]
  · rename_i heq
    rw [hcw] at heq
    exact Option.noConfusion heq

/-- If one index of the loop rejects for every incoming state, the whole
scoring loop rejects. -/
theorem scoreLoop_rejects {b : Board} {words : List (List Char)}
    {sR sC dr dc cdr cdc : Int} {pc bp : List (Int × Int)} {i : Int}
    {letter : Char}
    (hstep : ∀ st, scoreStep b words sR sC dr dc cdr cdc pc bp i letter st
      = none) :
    ∀ {l : List (Int × Char)}, (i, letter) ∈ l →
      ∀ st, scoreLoop b words sR sC dr dc cdr cdc pc bp l st = none := by
  intro l
  induction l with
  | nil =>
    intro h
    cases h
  | cons hd rest ih =>
    intro hmem st
    rcases hd with ⟨j, lj⟩
    rw [scoreLoop]
    rcases List.mem_cons.mp hmem with heq | htail
    · injection heq with he1 he2
      subst he1
      subst he2
      rw [hstep st]
    · rcases h2 : scoreStep b words sR sC dr dc cdr cdc pc bp j lj st
          with hh | st1
      · rfl
      · exact ih htail st1

/-- `_validate_and_score` returns no move whenever some freshly placed
tile forms a perpendicular word of length at least 2 that is not in the
dictionary. -/
theorem validateAndScore_rejects {b : Board} {words : List (List Char)}
    {w : List Char} {sR sC : Int} {dir : String} {placed : List Placed}
    {i : Int} {letter : Char} {cw : List Char} {cs : Int}
    (hmem : (i, letter) ∈ (intRange w.length).zip w)
    (hpc : (placed.map (fun p => (p.r, p.c))).contains
        (sR + i * (if dir = "V" then 1 else 0),
         sC + i * (if dir = "H" then 1 else 0)) = true)
    (hcw : getCrossWord b (sR + i * (if dir = "V" then 1 else 0))
        (sC + i * (if dir = "H" then 1 else 0)) letter
        (if dir = "H" then 1 else 0) (if dir = "V" then 1 else 0)
        (bonusAt (sR + i * (if dir = "V" then 1 else 0))
          (sC + i * (if dir = "H" then 1 else 0)))
        (((placed.filter (fun p => p.was_blank)).map
              (fun p => (p.r, p.c))).contains
            (sR + i * (if dir = "V" then 1 else 0),
             sC + i * (if dir = "H" then 1 else 0)) ||
          ((b.get (sR + i * (if dir = "V" then 1 else 0))
              (sC + i * (if dir = "H" then 1 else 0))).map Char.isLower).getD
            false)
        = some (cw, cs))
    (hlen : 1 < cw.length)
    (hdict : dictContains words (cw.map Char.toUpper) = false) :
    validateAndScore b words w sR sC dir placed = none := by
  simp only [validateAndScore]
  have hstep : ∀ st, scoreStep b words sR sC (if dir = "V" then 1 else 0)
      (if dir = "H" then 1 else 0) (if dir = "H" then 1 else 0)
      (if dir = "V" then 1 else 0) (placed.map (fun p => (p.r, p.c)))
      ((placed.filter (fun p => p.was_blank)).map (fun p => (p.r, p.c)))
      i letter st = none :=
    fun st => scoreStep_rejects hpc hcw hlen hdict
  rw [scoreLoop_rejects hstep hmem ⟨0, 1, 0, []⟩]

/-- Every move of `_try_placements` is a value of
`_validate_and_score`. -/
theorem try_placements_sound {b : Board} {words : List (List Char)}
    {trie : TrieNode} {rack : List Char} {sR sC : Int} {direction : String}
    {L : Nat} {m : Move}
    (hm : m ∈ Engine.try_placements b words trie rack sR sC direction L) :
    ∃ (w : List Char) (p : List Placed),
      validateAndScore b words w sR sC direction p = some m := by
  simp only [Engine.try_placements] at hm
  have hm2 := mem_of_ite_nil_pos (mem_of_ite_nil_pos hm)
  simp only [tryPlacementsCore] at hm2
  rcases mem_of_ite_nil_neg hm2 with ⟨_, hm3⟩
  exact fill_sound (mem_of_ite_nil_pos hm3)

/-- Every move of the length loop is a value of `_validate_and_score`
at the loop's fixed start cell and direction. -/
theorem lengthsGo_sound {b : Board} {words : List (List Char)}
    {trie : TrieNode} {rack : List Char} {aR aC sR sC : Int}
    {direction : String} :
    ∀ {lengths : List Nat} {m : Move},
      m ∈ lengthsGo b words trie rack aR aC sR sC direction lengths →
      ∃ (w : List Char) (p : List Placed),
        validateAndScore b words w sR sC direction p = some m := by
  intro lengths
  induction lengths with
  | nil =>
    intro m hm
    cases hm
  | cons L Ls ih =>
    intro m hm
    simp only [lengthsGo] at hm
    have hm2 := mem_of_ite_nil_pos hm
    by_cases hcont : ((if (if direction = "V" then (1 : Int) else 0) ≠ 0 then
        aR - sR else aC - sC) < 0 ∨
        (L : Int) ≤ (if (if direction = "V" then (1 : Int) else 0) ≠ 0 then
          aR - sR else aC - sC))
    · rw [if_pos hcont] at hm2
      exact ih hm2
    · rw [if_neg hcont] at hm2
      rcases List.mem_append.mp hm2 with htp | hrec
      · exact try_placements_sound htp
      · exact ih hrec

/-- Every generated move is a value of `_validate_and_score`. -/
theorem generate_sound {b : Board} {words : List (List Char)}
    {trie : TrieNode} {rack : List Char} {m : Move}
    (hm : m ∈ generate_all_moves b words trie rack) :
    ∃ (w : List Char) (sR sC : Int) (dir : String) (p : List Placed),
      validateAndScore b words w sR sC dir p = some m := by
  simp only [generate_all_moves] at hm
  split at hm
  · simp only [generate_first_moves] at hm
    rcases List.mem_flatMap.mp hm with ⟨L, _, hm2⟩
    rcases List.mem_append.mp hm2 with hh | hv
    · rcases List.mem_flatMap.mp hh with ⟨sc, _, hm3⟩
      rcases mem_of_ite_nil_neg hm3 with ⟨_, hm4⟩
      obtain ⟨w, p, hval⟩ := try_placements_sound hm4
      exact ⟨w, CENTER, sc, "H", p, hval⟩
    · rcases List.mem_flatMap.mp hv with ⟨sr, _, hm3⟩
      rcases mem_of_ite_nil_neg hm3 with ⟨_, hm4⟩
      obtain ⟨w, p, hval⟩ := try_placements_sound hm4
      exact ⟨w, sr, CENTER, "V", p, hval⟩
  · rcases List.mem_flatMap.mp hm with ⟨d, _, hm2⟩
    rcases List.mem_flatMap.mp hm2 with ⟨a, _, hm3⟩
    simp only [generate_moves_at_anchor] at hm3
    obtain ⟨w, p, hval⟩ := lengthsGo_sound hm3
    exact ⟨w, _, _, d, p, hval⟩

/-- A board with a single tile A at (7, 6). -/
def aBoard : Board := mkBoard [(7, 6, 'A')]

/-- A dictionary containing TO and AT. -/
def toWords : List (List Char) := [['T', 'O'], ['A', 'T']]

/-- Trie of the TO/AT dictionary. -/
def toTrie : TrieNode := buildTrie toWords

/-- The move TO played horizontally at (8, 6) below the A at (7, 6),
forming the cross-word AT. -/
def toMove : Move :=
  { word := ['T', 'O'], row := 8, col := 6, direction := "H", score := 4,
    tiles_used := [('T', 8, 6), ('O', 8, 7)], cross_words := [['A', 'T']],
    is_sweep := false, blank_positions := [] }

/-- The placements of the move TO at (8, 6). -/
def toPlaced : List Placed :=
  [⟨'T', 8, 6, false⟩, ⟨'O', 8, 7, false⟩]

/-- C7: (1) every cross-word of a returned move has length at least 2
and is a dictionary word; (2) whenever a freshly placed tile forms a
perpendicular word of length at least 2 that is not in the dictionary,
`_validate_and_score` returns no move; (3) `_get_cross_word` never
produces a length-1 word, so length-1 perpendicular strings are neither
validated nor recorded. -/
theorem C7_cross_word_validation :
    (∀ (b : Board) (words : List (List Char)) (trie : TrieNode)
        (rack : List Char) (topN : Nat) (m : Move),
        m ∈ find_best_moves b words trie rack topN →
        ∀ cw ∈ m.cross_words,
          2 ≤ cw.length ∧ dictContains words (cw.map Char.toUpper) = true) ∧
    (∀ (b : Board) (words : List (List Char)) (w : List Char) (sR sC : Int)
        (dir : String) (placed : List Placed) (i : Int) (letter : Char)
        (cw : List Char) (cs : Int),
        (i, letter) ∈ (intRange w.length).zip w →
        (placed.map (fun p => (p.r, p.c))).contains
            (sR + i * (if dir = "V" then 1 else 0),
             sC + i * (if dir = "H" then 1 else 0)) = true →
        getCrossWord b (sR + i * (if dir = "V" then 1 else 0))
            (sC + i * (if dir = "H" then 1 else 0)) letter
            (if dir = "H" then 1 else 0) (if dir = "V" then 1 else 0)
            (bonusAt (sR + i * (if dir = "V" then 1 else 0))
              (sC + i * (if dir = "H" then 1 else 0)))
            (((placed.filter (fun p => p.was_blank)).map
                  (fun p => (p.r, p.c))).contains
                (sR + i * (if dir = "V" then 1 else 0),
                 sC + i * (if dir = "H" then 1 else 0)) ||
              ((b.get (sR + i * (if dir = "V" then 1 else 0))
                  (sC + i * (if dir = "H" then 1 else 0))).map
                    Char.isLower).getD false)
            = some (cw, cs) →
        1 < cw.length →
        dictContains words (cw.map Char.toUpper) = false →
        validateAndScore b words w sR sC dir placed = none) ∧
    (∀ (b : Board) (r c : Int) (letter : Char) (cdr cdc : Int)
        (bonus : String) (isBlank : Bool) (p : List Char × Int),
        getCrossWord b r c letter cdr cdc bonus isBlank = some p →
        2 ≤ p.1.length) := by
  refine ⟨?_, ?_, ?_⟩
  · intro b words trie rack topN m hm
    obtain ⟨w, sR, sC, dir, p, hval⟩ :=
      generate_sound (find_best_moves_mem_generate hm)
    exact validateAndScore_cross hval
  · intro b words w sR sC dir placed i letter cw cs hmem hpc hcw hlen hdict
    exact validateAndScore_rejects hmem hpc hcw hlen hdict
  · intro b r c letter cdr cdc bonus isBlank p h
    exact getCrossWord_length h

/-- C7 (witness): the move TO at (8, 6) on the board holding A at (7, 6)
is returned with the validated cross-word AT; dropping AT from the
dictionary makes `_validate_and_score` reject the same placement; the
cross-word produced at (8, 6) has length 2. -/
theorem C7_cross_word_validation_witness :
    (2 ≤ (['A', 'T'] : List Char).length ∧
      dictContains toWords ((['A', 'T'] : List Char).map Char.toUpper)
        = true) ∧
    validateAndScore aBoard [['T', 'O']] ['T', 'O'] 8 6 "H" toPlaced
      = none ∧
    2 ≤ ((['A', 'T'], (2 : Int)) : List Char × Int).1.length :=
  ⟨C7_cross_word_validation.1 aBoard toWords toTrie ['T', 'O'] 20 toMove
      (by decide) ['A', 'T'] (by decide),
   C7_cross_word_validation.2.1 aBoard [['T', 'O']] ['T', 'O'] 8 6 "H"
      toPlaced 0 'T' ['A', 'T'] 2 (by decide) (by decide) (by decide)
      (by decide) (by decide),
   C7_cross_word_validation.2.2 aBoard 8 6 'T' 1 0 "." false
      (['A', 'T'], 2) (by decide)⟩

end Crossplay
